import Mathlib

/-!
Verification development for the ssr-diag mismatch-detection pipeline
(src/cli.ts).  JS strings are modelled as lists of characters; the
normalizer, the line-diff edit script, the mismatch grouper, the
relevance filter and the reporter are embedded as executable functions
below, and the specification's claims about them are settled afterwards.
-/

set_option maxHeartbeats 1000000

namespace SsrDiag

/-! ## JS string primitives

A JS string is modelled as a `List Char`.  `isJsSpace` is the character
class `\s` used by both `String.prototype.trim` and the `\s*` of the
meta-charset regex (ASCII whitespace plus the Unicode space characters
JS includes). -/

def isJsSpace (c : Char) : Bool :=
  c = ' ' || c = '\t' || c = '\n' || c = '\r' || c = '\x0b' || c = '\x0c' ||
  c = ' ' || c = ' ' || (' ' ≤ c && c ≤ ' ') ||
  c = ' ' || c = ' ' || c = ' ' || c = ' ' ||
  c = '　' || c = '﻿'

/-- Model of `s.trimStart()`: drop leading JS whitespace. -/
def trimStart (l : List Char) : List Char := l.dropWhile isJsSpace

/-- Model of `s.trimEnd()`: drop trailing JS whitespace. -/
def trimEnd (l : List Char) : List Char := (l.reverse.dropWhile isJsSpace).reverse

/-- Model of `s.trim()` from `normalize` in cli.ts line 98. -/
def jsTrim (l : List Char) : List Char := trimEnd (trimStart l)

/-- Model of `s.split('\n')` (cli.ts lines 80, 116, 148): split on every
newline; the result always has one more part than there are newlines,
and an empty string splits to `[""]`, exactly as in JS. -/
def splitNl : List Char → List (List Char)
  | [] => [[]]
  | c :: rest =>
    if c = '\n' then [] :: splitNl rest
    else
      match splitNl rest with
      | h :: t => (c :: h) :: t
      | [] => [[c]]

/-! ## Normalizer (cli.ts lines 94-98)

The source is
`html.replace(/^<!DOCTYPE html>.*?<html/, '<html')
     .replace(/<meta charset="([^"]+)"\s*\/?>/g, '<meta charset="$1">')
     .trim()`.

The first regex is compiled directly: it is anchored at the start, the
literal `<!DOCTYPE html>` is case-sensitive, `.` (without the `s` flag)
matches no line terminator — LF, CR, U+2028 LINE SEPARATOR or U+2029
PARAGRAPH SEPARATOR — and `.*?` is lazy, so the replacement fires
exactly when the input begins with the exact doctype literal and
`<html` occurs later with no line terminator in between, consuming up
to the first such occurrence. -/

def doctypeLit : List Char := "<!DOCTYPE html>".data

def htmlLit : List Char := "<html".data

/-- The four JavaScript line terminators, which `.` without the `s`
flag never matches: LF, CR, LINE SEPARATOR and PARAGRAPH SEPARATOR. -/
def isLineTerm (c : Char) : Bool :=
  c = '\n' || c = '\r' || c = ' ' || c = ' '

/-- Lazy search for `<html` with no interposed line terminator, the
semantics of the anchored `.*?<html` (no `s` flag).  Returns the suffix
after the first match reachable without crossing a line terminator. -/
def seekHtml : List Char → Option (List Char)
  | [] => none
  | c :: rest =>
    if htmlLit.isPrefixOf (c :: rest) then some ((c :: rest).drop 5)
    else if isLineTerm c then none
    else seekHtml rest

/-- Model of `.replace(/^<!DOCTYPE html>.*?<html/, '<html')`:
a non-global anchored replace, so at most the one leading match is
rewritten; on no match the string is returned unchanged. -/
def stripDoctype (l : List Char) : List Char :=
  if doctypeLit.isPrefixOf l then
    match seekHtml (l.drop 15) with
    | some rest => htmlLit ++ rest
    | none => l
  else l

/-! Meta-charset normalization, the global replace
`/<meta charset="([^"]+)"\s*\/?>/g` with replacement
`<meta charset="$1">`.  The pattern is compiled as: the literal
`<meta charset="`, then the forced maximal run of non-quote characters
(nonempty), the closing quote, a run of `\s`, an optional `/`, and `>`.
Backtracking cannot help either quantifier here (`[^"]+` is bounded by
the next quote, and a character given back by `\s*` is whitespace, never
`/` or `>`), so the greedy compilation below is exact. -/

def metaPat : List Char := "<meta charset=\"".data

/-- Text of `metaPat` before its closing quote (14 characters). -/
def mpCore : List Char := "<meta charset=".data

/-- Text of `metaPat` after its opening angle bracket (14 characters). -/
def mpTail : List Char := "meta charset=\"".data

/-- Scan to the first `"` and return what follows it. -/
def seekQuote : List Char → Option (List Char)
  | [] => none
  | c :: rest => if c = '"' then some rest else seekQuote rest

/-- Match `\s*\/?>` at the head of `t`; on success return the remainder
after the final `>`. -/
def gwTail (t : List Char) : Option (List Char) :=
  match t.dropWhile isJsSpace with
  | '>' :: r => some r
  | '/' :: '>' :: r => some r
  | _ => none

/-- Match `([^"]+)"\s*\/?>` at the head of `z`; on success return the
captured charset text and the remainder after the match.  The capture is
the (nonempty) run of non-quote characters before the first quote. -/
def afterPat (z : List Char) : Option (List Char × List Char) :=
  match z with
  | [] => none
  | a :: _ =>
    if a = '"' then none
    else
      (seekQuote z).bind
        (fun t => (gwTail t).map (fun r => (z.takeWhile (fun c => c ≠ '"'), r)))

/-- Try the whole meta-charset pattern at the head of `l`. -/
def tryMeta (l : List Char) : Option (List Char × List Char) :=
  if metaPat.isPrefixOf l then afterPat (l.drop 15) else none

/-- Replacement text `<meta charset="$1">` for a captured charset `q`. -/
def replMeta (q : List Char) : List Char := metaPat ++ q ++ ['"', '>']

/-- Left-to-right global-replace scan, fuelled for structural recursion;
`metaNorm` below supplies sufficient fuel. -/
def metaNormF : Nat → List Char → List Char
  | 0, l => l
  | _ + 1, [] => []
  | f + 1, c :: cs =>
    match tryMeta (c :: cs) with
    | some (q, r) => replMeta q ++ metaNormF f r
    | none => c :: metaNormF f cs

/-- Model of `.replace(/<meta charset="([^"]+)"\s*\/?>/g, '<meta charset="$1">')`. -/
def metaNorm (l : List Char) : List Char := metaNormF l.length l

/-- Model of `normalize` (cli.ts lines 94-98): doctype strip, then the
global meta-charset rewrite, then trim. -/
def normalize (html : List Char) : List Char :=
  jsTrim (metaNorm (stripDoctype html))

/-! ## Line differ

Modelled from the spec: the `diffLines` edit-script producer is the
external `diff` npm package, whose code is not part of this repository;
section 4.2 of the spec describes it as a classic line-granularity
LCS-based diff over the inputs split on line boundaries (tokens keep
their trailing newline), preferring Removed chunks before their paired
Added chunks, with adjacent chunks of one kind merged. -/

inductive ChunkKind
  | unchanged
  | removed
  | added
deriving DecidableEq, Repr

/-- One unit of the edit script: a kind and the chunk's text
(the `value` field of a jsdiff change object). -/
structure DiffChunk where
  kind : ChunkKind
  text : List Char
deriving DecidableEq, Repr

/-- Tokenize a document into lines that keep their trailing newline;
the final token has none (jsdiff line tokens). -/
def toTokens : List Char → List (List Char)
  | [] => [[]]
  | c :: rest =>
    if c = '\n' then ['\n'] :: toTokens rest
    else
      match toTokens rest with
      | h :: t => (c :: h) :: t
      | [] => [[c]]

/-- Length of a longest common subsequence of two token lists, fuelled. -/
def lcsLenF : Nat → List (List Char) → List (List Char) → Nat
  | 0, _, _ => 0
  | _ + 1, [], _ => 0
  | _ + 1, _, [] => 0
  | f + 1, a :: as, b :: bs =>
    if a = b then 1 + lcsLenF f as bs
    else max (lcsLenF f as (b :: bs)) (lcsLenF f (a :: as) bs)

def lcsLen (xs ys : List (List Char)) : Nat := lcsLenF (xs.length + ys.length) xs ys

/-- LCS-based edit script over token lists: kinds paired with single
tokens, Removed preferred before Added on ties. -/
def diffOpsF : Nat → List (List Char) → List (List Char) → List (ChunkKind × List Char)
  | 0, _, _ => []
  | _ + 1, [], bs => bs.map (fun b => (ChunkKind.added, b))
  | f + 1, a :: as, [] => (ChunkKind.removed, a) :: diffOpsF f as []
  | f + 1, a :: as, b :: bs =>
    if a = b then (ChunkKind.unchanged, a) :: diffOpsF f as bs
    else if lcsLen (a :: as) bs ≤ lcsLen as (b :: bs) then
      (ChunkKind.removed, a) :: diffOpsF f as (b :: bs)
    else (ChunkKind.added, b) :: diffOpsF f (a :: as) bs

def diffOps (xs ys : List (List Char)) : List (ChunkKind × List Char) :=
  diffOpsF (xs.length + ys.length) xs ys

/-- Prepend one op to an already-chunked tail, merging it into the head
chunk when the kinds agree. -/
def chunkCons (k : ChunkKind) (t : List Char) : List DiffChunk → List DiffChunk
  | c :: cs => if c.kind = k then ⟨k, t ++ c.text⟩ :: cs else ⟨k, t⟩ :: c :: cs
  | [] => [⟨k, t⟩]

/-- Merge adjacent per-token ops of equal kind into chunks, concatenating
their token text in order. -/
def chunkify : List (ChunkKind × List Char) → List DiffChunk
  | [] => []
  | (k, t) :: rest => chunkCons k t (chunkify rest)

/-- Model of `diffLines(before, after)` (cli.ts line 101). -/
def diffLines (before after : List Char) : List DiffChunk :=
  chunkify (diffOps (toTokens before) (toTokens after))

/-- Concatenated text of the Unchanged and Removed chunks, in order. -/
def serverText (chunks : List DiffChunk) : List Char :=
  ((chunks.filter (fun c => c.kind != ChunkKind.added)).map (fun c => c.text)).flatten

/-- Concatenated text of the Unchanged and Added chunks, in order. -/
def clientText (chunks : List DiffChunk) : List Char :=
  ((chunks.filter (fun c => c.kind != ChunkKind.removed)).map (fun c => c.text)).flatten

/-! ## Mismatch grouper (cli.ts lines 104-150) -/

/-- Maximum display width `MAX` (cli.ts line 105). -/
def MAXW : Nat := 120

/-- One reported source line (cli.ts line 104). -/
structure LineInfo where
  line : Int
  snippet : List Char
  length : Nat
deriving DecidableEq, Repr

/-- Snippet truncation `full.length > MAX ? full.slice(0, MAX) + '…' : full`. -/
def snip (full : List Char) : List Char :=
  if full.length > MAXW then full.take MAXW ++ ['…'] else full

def mkLineInfo (num : Int) (full : List Char) : LineInfo :=
  ⟨num, snip full, full.length⟩

/-- Build LineInfos for consecutive lines, numbering from `num` upward;
this is the indexed `map` of the source with base number made explicit. -/
def mkLineInfos (num : Int) : List (List Char) → List LineInfo
  | [] => []
  | full :: rest => mkLineInfo num full :: mkLineInfos (num + 1) rest

structure MismatchRecord where
  contextBefore : List LineInfo
  serverLines : List LineInfo
  clientLines : List LineInfo
  contextAfter : List LineInfo
deriving DecidableEq, Repr

/-- State of the grouping scan: the mutable `cursor`/`current` of the
source, plus the records already closed.  In the source `current` is
pushed into `grouped` when opened and mutated in place; here the open
record is held in `current` and appended on close (or at end of scan),
which yields the same final array in the same order. -/
structure GroupState where
  cursor : Nat
  current : Option MismatchRecord
  grouped : List MismatchRecord
deriving DecidableEq, Repr

/-- Model of `arr.slice(a, b)` for `0 ≤ a ≤ b` (Nat subtraction supplies
the `Math.max(0, ·)` clamp used at the call site). -/
def jsSlice (l : List (List Char)) (a b : Nat) : List (List Char) :=
  (l.drop a).take (b - a)

/-- Lines reported for a chunk, `p.value.split('\n').filter(Boolean)`
(cli.ts line 116): JS `Boolean` drops every empty string. -/
def chunkLines (p : DiffChunk) : List (List Char) :=
  (splitNl p.text).filter (fun l => !l.isEmpty)

/-- Cursor advancement of a chunk, `p.value.split('\n').length - 1`
(cli.ts line 148), i.e. its number of line breaks. -/
def cursorAdv (p : DiffChunk) : Nat :=
  (splitNl p.text).length - 1

/-- Record opening (cli.ts lines 118-130): contextBefore comes from
`slice(Math.max(0, cursor - 1), cursor)` with numbers
`cursor - before.length + i + 1`. -/
def openRec (sla : List (List Char)) (c : Nat) : MismatchRecord :=
  { contextBefore :=
      mkLineInfos ((c : Int) - (jsSlice sla (c - 1) c).length + 1) (jsSlice sla (c - 1) c),
    serverLines := [], clientLines := [], contextAfter := [] }

/-- Record closing (cli.ts lines 139-147): contextAfter comes from
`slice(cursor, cursor + 1)` with numbers `cursor + i + 1`. -/
def closeRec (sla : List (List Char)) (c : Nat) (cur : MismatchRecord) : MismatchRecord :=
  { cur with contextAfter := mkLineInfos ((c : Int) + 1) (jsSlice sla c (c + 1)) }

/-- Appending a changed chunk's lines (cli.ts lines 132-137), numbered
`cursor + i + 1`, to serverLines (removed) or clientLines (added). -/
def pushLines (p : DiffChunk) (c : Nat) (cur : MismatchRecord) : MismatchRecord :=
  let infos := mkLineInfos ((c : Int) + 1) (chunkLines p)
  if p.kind = ChunkKind.removed then { cur with serverLines := cur.serverLines ++ infos }
  else { cur with clientLines := cur.clientLines ++ infos }

/-- One step of `diffs.forEach((p) => ...)` (cli.ts lines 115-150).
The changed branch (`p.added || p.removed`) opens a record when none is
open and then appends the chunk's nonblank lines; the unchanged branch
closes an open record and advances the cursor by the chunk's
line-break count.  The cursor is touched nowhere else. -/
def groupStep (sla : List (List Char)) (st : GroupState) (p : DiffChunk) : GroupState :=
  if p.kind = ChunkKind.unchanged then
    match st.current with
    | some cur =>
      { cursor := st.cursor + cursorAdv p, current := none,
        grouped := st.grouped ++ [closeRec sla st.cursor cur] }
    | none => { st with cursor := st.cursor + cursorAdv p }
  else
    match st.current with
    | some cur => { st with current := some (pushLines p st.cursor cur) }
    | none => { st with current := some (pushLines p st.cursor (openRec sla st.cursor)) }

/-- The grouping scan over the whole edit script; `sla` is
`serverLinesArr = serverHtml.split('\n')` (cli.ts line 80).  The final
array is the closed records followed by the still-open one, if any. -/
def runGroup (sla : List (List Char)) (chunks : List DiffChunk) : List MismatchRecord :=
  (chunks.foldl (groupStep sla) ⟨0, none, []⟩).grouped ++
    (chunks.foldl (groupStep sla) ⟨0, none, []⟩).current.toList

/-! ## Relevance filter (cli.ts lines 152-157) -/

def rootMarker : List Char := "<div id=\"root\"".data

def h1Marker : List Char := "<h1".data

/-- Substring test: does `pat` occur contiguously inside `s`. -/
def hasInfix (pat : List Char) : List Char → Bool
  | [] => pat.isEmpty
  | c :: rest => pat.isPrefixOf (c :: rest) || hasInfix pat rest

/-- Model of `isRelevant`: the regex `/<div id="root"|<h1/` is an
alternation of two literals, i.e. a substring test for either. -/
def isRelevant (g : MismatchRecord) : Bool :=
  (g.serverLines ++ g.clientLines).any (fun ln =>
    hasInfix rootMarker ln.snippet || hasInfix h1Marker ln.snippet)

def relevanceFilter (grouped : List MismatchRecord) : List MismatchRecord :=
  grouped.filter isRelevant

/-- Grouped-and-filtered mismatch list of one run (cli.ts lines 99-157):
note the context lines come from the raw, pre-normalization server
split, exactly as in the source. -/
def runFiltered (serverHtml clientHtml : List Char) : List MismatchRecord :=
  relevanceFilter
    (runGroup (splitNl serverHtml) (diffLines (normalize serverHtml) (normalize clientHtml)))

/-! ## Reporter (cli.ts lines 159-187) -/

inductive OutputFormat
  | text
  | json
deriving DecidableEq, Repr

/-- JSON documents, with object fields in emission order, as
`JSON.stringify` preserves property creation order. -/
inductive Json
  | num (n : Int)
  | str (s : List Char)
  | arr (xs : List Json)
  | obj (fields : List (List Char × Json))

def lineInfoJson (li : LineInfo) : Json :=
  Json.obj [("line".data, Json.num li.line),
            ("snippet".data, Json.str li.snippet),
            ("length".data, Json.num (li.length : Int))]

def recordJson (g : MismatchRecord) : Json :=
  Json.obj [("contextBefore".data, Json.arr (g.contextBefore.map lineInfoJson)),
            ("serverLines".data, Json.arr (g.serverLines.map lineInfoJson)),
            ("clientLines".data, Json.arr (g.clientLines.map lineInfoJson)),
            ("contextAfter".data, Json.arr (g.contextAfter.map lineInfoJson))]

/-- The `{ mismatches: [...] }` document of JSON mode (cli.ts line 161). -/
def reportJson (filtered : List MismatchRecord) : Json :=
  Json.obj [("mismatches".data, Json.arr (filtered.map recordJson))]

def natDigits (n : Nat) : List Char := Nat.toDigits 10 n

def intStr (i : Int) : List Char :=
  match i with
  | Int.ofNat n => natDigits n
  | Int.negSucc n => '-' :: natDigits (n + 1)

/-- One rendered report line `${pre}${l.line} | ${l.snippet}` (the chalk
coloring is cosmetic and not modelled). -/
def renderLine (pre : List Char) (li : LineInfo) : List Char :=
  pre ++ intStr li.line ++ " | ".data ++ li.snippet

/-- The lines printed for one record (cli.ts lines 171-185). -/
def recordBlock (idx : Nat) (g : MismatchRecord) : List (List Char) :=
  ('\n' :: ("Mismatch #".data ++ natDigits (idx + 1))) ::
    (g.contextBefore.map (renderLine "  ".data) ++
     g.serverLines.map (renderLine "- ".data) ++
     g.clientLines.map (renderLine "+ ".data) ++
     g.contextAfter.map (renderLine "  ".data))

/-- The `filtered.forEach((g, idx) => ...)` loop of text mode. -/
def renderTextF : Nat → List MismatchRecord → List (List Char)
  | _, [] => []
  | idx, g :: rest => recordBlock idx g ++ renderTextF (idx + 1) rest

def successLine : List Char := "✅ No hydration mismatches detected.".data

/-- Result of one render: the JSON document (JSON mode), the emitted
text lines, and the process exit code. -/
structure ReportOut where
  jsonDoc : Option Json
  outLines : List (List Char)
  exit : Nat

/-- Model of the reporter (cli.ts lines 159-187): JSON mode prints the
document and exits `filtered.length ? 1 : 0`; text mode prints a success
line and exits 0 on empty, else prints every record and exits 1. -/
def render (fmt : OutputFormat) (filtered : List MismatchRecord) : ReportOut :=
  match fmt with
  | OutputFormat.json =>
    ⟨some (reportJson filtered), [], if filtered.length ≠ 0 then 1 else 0⟩
  | OutputFormat.text =>
    if filtered.length = 0 then ⟨none, [successLine], 0⟩
    else ⟨none, renderTextF 0 filtered, 1⟩

/-- Spec-side text rendering (section 4.5): for each record in order,
under 1-based numbering, a header then contextBefore, serverLines as
removed, clientLines as added, then contextAfter.  Stated independently
of the scanning loop, for comparison with `renderTextF`. -/
def textReportSpec (filtered : List MismatchRecord) : List (List Char) :=
  (((List.range filtered.length).zip filtered).map
    (fun p => recordBlock p.1 p.2)).flatten

/-! ## Shared predicates used by the theorems -/

/-- A LineInfo is well-formed when it records some full line's true
length together with that line's truncated snippet. -/
def LiOk (li : LineInfo) : Prop :=
  ∃ full : List Char, li.snippet = snip full ∧ li.length = full.length

/-- Shape invariant of a record produced by the grouping scan: all four
arrays hold well-formed LineInfos and both context arrays hold at most
one line. -/
def RecShape (r : MismatchRecord) : Prop :=
  (∀ li ∈ r.contextBefore, LiOk li) ∧ (∀ li ∈ r.serverLines, LiOk li) ∧
  (∀ li ∈ r.clientLines, LiOk li) ∧ (∀ li ∈ r.contextAfter, LiOk li) ∧
  r.contextBefore.length ≤ 1 ∧ r.contextAfter.length ≤ 1

/-- Shape invariant of the whole scan state. -/
def StShape (st : GroupState) : Prop :=
  (∀ r ∈ st.grouped, RecShape r) ∧ (∀ r, st.current = some r → RecShape r)

/-- Document-edge characterization of contextBefore: it is the
at-most-one-line slice of the server array immediately preceding some
opening cursor `c`, and it is empty exactly when no server line exists
at index `c - 1` (the record opened at the top of the document, or the
cursor lies beyond the last server line). -/
def BeforeEdge (sla : List (List Char)) (r : MismatchRecord) : Prop :=
  ∃ c : Nat,
    r.contextBefore =
      mkLineInfos ((c : Int) - (jsSlice sla (c - 1) c).length + 1) (jsSlice sla (c - 1) c) ∧
    (r.contextBefore = [] ↔ c = 0 ∨ sla.length < c)

/-- Document-edge characterization of contextAfter for a closed record:
it is the at-most-one-line slice of the server array at some closing
cursor `c`, and it is empty exactly when no server line exists at index
`c` (the cursor lies at or beyond the end of the document). -/
def AfterEdge (sla : List (List Char)) (r : MismatchRecord) : Prop :=
  ∃ c : Nat,
    r.contextAfter = mkLineInfos ((c : Int) + 1) (jsSlice sla c (c + 1)) ∧
    (r.contextAfter = [] ↔ sla.length ≤ c)

/-- Edge invariant of the scan state: every closed record satisfies
both edge characterizations; the still-open record satisfies the
contextBefore characterization and has an empty contextAfter. -/
def EdgeSt (sla : List (List Char)) (st : GroupState) : Prop :=
  (∀ r ∈ st.grouped, BeforeEdge sla r ∧ AfterEdge sla r) ∧
  (∀ r, st.current = some r → BeforeEdge sla r ∧ r.contextAfter = [])

/-! ## Basic lemmas on the embedded operations -/

theorem foldl_inv {α β : Type _} {f : β → α → β} {P : β → Prop} :
    ∀ {l : List α} {b : β}, P b → (∀ b' a, P b' → a ∈ l → P (f b' a)) →
      P (l.foldl f b) := by
  intro l
  induction l with
  | nil => intro b hb _; exact hb
  | cons a t ih =>
    intro b hb hstep
    exact ih (hstep b a hb (List.mem_cons_self a t))
      (fun b' x hb' hx => hstep b' x hb' (List.mem_cons_of_mem a hx))

theorem splitNl_ne_nil (l : List Char) : splitNl l ≠ [] := by
  cases l with
  | nil => simp [splitNl]
  | cons c rest =>
    by_cases h : c = '\n'
    · simp [splitNl, h]
    · simp only [splitNl, if_neg h]
      cases splitNl rest <;> simp

theorem splitNl_length (l : List Char) : (splitNl l).length = l.count '\n' + 1 := by
  induction l with
  | nil => rfl
  | cons c rest ih =>
    by_cases h : c = '\n'
    · subst h
      simp [splitNl, ih, List.count_cons]
    · simp only [splitNl, if_neg h]
      cases hsp : splitNl rest with
      | nil => exact absurd hsp (splitNl_ne_nil rest)
      | cons x xs =>
        rw [hsp] at ih
        have hif : (c == '\n') = false := by
          simp only [beq_eq_false_iff_ne, ne_eq]
          exact h
        simp only [List.count_cons, hif, Bool.false_eq_true, if_false,
          List.length_cons, Nat.add_zero] at ih ⊢
        omega

theorem mkLineInfos_length (b : Int) (ls : List (List Char)) :
    (mkLineInfos b ls).length = ls.length := by
  induction ls generalizing b with
  | nil => rfl
  | cons h t ih => simp [mkLineInfos, ih]

theorem mem_mkLineInfos {li : LineInfo} :
    ∀ {b : Int} {ls : List (List Char)}, li ∈ mkLineInfos b ls →
      ∃ full ∈ ls, li.snippet = snip full ∧ li.length = full.length := by
  intro b ls
  induction ls generalizing b with
  | nil => intro h; cases h
  | cons x xs ih =>
    intro h
    rcases List.mem_cons.mp h with h | h
    · subst h
      exact ⟨x, List.mem_cons_self x xs, rfl, rfl⟩
    · rcases ih h with ⟨full, hmem, hs, hl⟩
      exact ⟨full, List.mem_cons_of_mem x hmem, hs, hl⟩

theorem jsSlice_length_le (l : List (List Char)) (a b : Nat) :
    (jsSlice l a b).length ≤ b - a := by
  unfold jsSlice
  rw [List.length_take]
  omega

/-! Equation lemmas exposing the four cases of `groupStep`. -/

theorem groupStep_unchanged_none {sla : List (List Char)} {st : GroupState}
    {p : DiffChunk} (hk : p.kind = ChunkKind.unchanged) (hc : st.current = none) :
    groupStep sla st p = { st with cursor := st.cursor + cursorAdv p } := by
  unfold groupStep
  rw [if_pos hk, hc]

theorem groupStep_unchanged_some {sla : List (List Char)} {st : GroupState}
    {p : DiffChunk} {cur : MismatchRecord}
    (hk : p.kind = ChunkKind.unchanged) (hc : st.current = some cur) :
    groupStep sla st p =
      { cursor := st.cursor + cursorAdv p, current := none,
        grouped := st.grouped ++ [closeRec sla st.cursor cur] } := by
  unfold groupStep
  rw [if_pos hk, hc]

theorem groupStep_changed_some {sla : List (List Char)} {st : GroupState}
    {p : DiffChunk} {cur : MismatchRecord}
    (hk : ¬ p.kind = ChunkKind.unchanged) (hc : st.current = some cur) :
    groupStep sla st p = { st with current := some (pushLines p st.cursor cur) } := by
  unfold groupStep
  rw [if_neg hk, hc]

theorem groupStep_changed_none {sla : List (List Char)} {st : GroupState}
    {p : DiffChunk} (hk : ¬ p.kind = ChunkKind.unchanged) (hc : st.current = none) :
    groupStep sla st p =
      { st with current := some (pushLines p st.cursor (openRec sla st.cursor)) } := by
  unfold groupStep
  rw [if_neg hk, hc]

/-! Preservation of `RecShape` along the scan. -/

theorem liOk_mkLineInfos {li : LineInfo} {b : Int} {ls : List (List Char)}
    (h : li ∈ mkLineInfos b ls) : LiOk li := by
  rcases mem_mkLineInfos h with ⟨full, _, hs, hl⟩
  exact ⟨full, hs, hl⟩

theorem recShape_openRec (sla : List (List Char)) (c : Nat) :
    RecShape (openRec sla c) := by
  refine ⟨fun li h => liOk_mkLineInfos h, fun li h => absurd h (List.not_mem_nil li),
    fun li h => absurd h (List.not_mem_nil li), fun li h => absurd h (List.not_mem_nil li),
    ?_, by simp [openRec]⟩
  show (mkLineInfos _ _).length ≤ 1
  rw [mkLineInfos_length]
  calc (jsSlice sla (c - 1) c).length ≤ c - (c - 1) := jsSlice_length_le sla (c - 1) c
    _ ≤ 1 := by omega

theorem recShape_pushLines {cur : MismatchRecord} (p : DiffChunk) (c : Nat)
    (h : RecShape cur) : RecShape (pushLines p c cur) := by
  obtain ⟨hcb, hsv, hcl, hca, hlb, hla⟩ := h
  unfold pushLines
  by_cases hr : p.kind = ChunkKind.removed <;> simp only [hr, if_true, if_false, reduceIte]
  · refine ⟨hcb, ?_, hcl, hca, hlb, hla⟩
    intro li hli
    rcases List.mem_append.mp hli with hli | hli
    · exact hsv li hli
    · exact liOk_mkLineInfos hli
  · refine ⟨hcb, hsv, ?_, hca, hlb, hla⟩
    intro li hli
    rcases List.mem_append.mp hli with hli | hli
    · exact hcl li hli
    · exact liOk_mkLineInfos hli

theorem recShape_closeRec {cur : MismatchRecord} (sla : List (List Char)) (c : Nat)
    (h : RecShape cur) : RecShape (closeRec sla c cur) := by
  obtain ⟨hcb, hsv, hcl, _, hlb, _⟩ := h
  refine ⟨hcb, hsv, hcl, fun li hli => liOk_mkLineInfos hli, hlb, ?_⟩
  show (mkLineInfos _ _).length ≤ 1
  rw [mkLineInfos_length]
  calc (jsSlice sla c (c + 1)).length ≤ (c + 1) - c := jsSlice_length_le sla c (c + 1)
    _ ≤ 1 := by omega

theorem stShape_step {sla : List (List Char)} {st : GroupState} (p : DiffChunk)
    (h : StShape st) : StShape (groupStep sla st p) := by
  obtain ⟨hg, hc⟩ := h
  by_cases hk : p.kind = ChunkKind.unchanged
  · cases hcur : st.current with
    | some cur =>
      rw [groupStep_unchanged_some hk hcur]
      refine ⟨fun r hr => ?_, by simp⟩
      rcases List.mem_append.mp hr with hr | hr
      · exact hg r hr
      · rcases List.mem_singleton.mp hr with rfl
        exact recShape_closeRec sla st.cursor (hc cur hcur)
    | none =>
      rw [groupStep_unchanged_none hk hcur]
      exact ⟨hg, hc⟩
  · cases hcur : st.current with
    | some cur =>
      rw [groupStep_changed_some hk hcur]
      refine ⟨hg, fun r hr => ?_⟩
      rcases Option.some.injEq .. ▸ hr with rfl
      exact recShape_pushLines p st.cursor (hc cur hcur)
    | none =>
      rw [groupStep_changed_none hk hcur]
      refine ⟨hg, fun r hr => ?_⟩
      rcases Option.some.injEq .. ▸ hr with rfl
      exact recShape_pushLines p st.cursor (recShape_openRec sla st.cursor)

theorem runGroup_recShape (sla : List (List Char)) (chunks : List DiffChunk) :
    ∀ r ∈ runGroup sla chunks, RecShape r := by
  intro r hr
  have hfin : StShape (chunks.foldl (groupStep sla) ⟨0, none, []⟩) := by
    apply foldl_inv
    · exact ⟨by simp, by simp⟩
    · intro st a hst _
      exact stShape_step a hst
  unfold runGroup at hr
  rcases List.mem_append.mp hr with hr | hr
  · exact hfin.1 r hr
  · cases hcur : (chunks.foldl (groupStep sla) ⟨0, none, []⟩).current with
    | none => rw [hcur] at hr; cases hr
    | some cur =>
      rw [hcur] at hr
      rcases List.mem_singleton.mp hr with rfl
      exact hfin.2 r hcur

/-- An edit script whose chunks are all Unchanged produces no records. -/
theorem runGroup_unchanged_nil (sla : List (List Char)) (chunks : List DiffChunk)
    (hall : ∀ c ∈ chunks, c.kind = ChunkKind.unchanged) :
    runGroup sla chunks = [] := by
  have hfin : (fun st : GroupState => st.current = none ∧ st.grouped = [])
      (chunks.foldl (groupStep sla) ⟨0, none, []⟩) := by
    refine @foldl_inv DiffChunk GroupState (groupStep sla)
      (fun st => st.current = none ∧ st.grouped = []) chunks ⟨0, none, []⟩
      ⟨rfl, rfl⟩ ?_
    intro st a hst ha
    rw [groupStep_unchanged_none (hall a ha) hst.1]
    exact hst
  unfold runGroup
  rw [hfin.1, hfin.2]
  rfl

/-! ## Claim C1: cursor advancement in the grouper -/

/-- Claim C1, as stated, is false: the grouping scan in cli.ts lines
115-150 advances the cursor only in the Unchanged branch; a Removed
chunk with one line break (text `b\n`) leaves the cursor at 0 instead
of advancing it to 1. -/
theorem c1_cursor_counterexample :
    ¬ ((groupStep [] ⟨0, none, []⟩ ⟨ChunkKind.removed, "b\n".data⟩).cursor =
        0 + "b\n".data.count '\n') := by
  decide

/-- Claim C1 amended: across the grouping scan, the cursor is advanced
exactly when an Unchanged chunk is consumed, by the number of line
breaks in that chunk; Removed chunks and Added chunks never advance it.
This holds for every chunk at every state, hence for every edit script. -/
theorem c1_cursor_advance (sla : List (List Char)) (st : GroupState) (p : DiffChunk) :
    (groupStep sla st p).cursor =
      st.cursor + (if p.kind = ChunkKind.unchanged then p.text.count '\n' else 0) := by
  have hadv : cursorAdv p = p.text.count '\n' := by
    unfold cursorAdv
    rw [splitNl_length]
    omega
  by_cases hk : p.kind = ChunkKind.unchanged
  · cases hcur : st.current with
    | some cur => rw [groupStep_unchanged_some hk hcur]; simp [hk, hadv]
    | none => rw [groupStep_unchanged_none hk hcur]; simp [hk, hadv]
  · cases hcur : st.current with
    | some cur => rw [groupStep_changed_some hk hcur]; simp [hk]
    | none => rw [groupStep_changed_none hk hcur]; simp [hk]

/-! Preservation of the document-edge invariant along the scan. -/

theorem mkLineInfos_eq_nil_iff {b : Int} {ls : List (List Char)} :
    mkLineInfos b ls = [] ↔ ls = [] := by
  cases ls <;> simp [mkLineInfos]

theorem jsSlice_nil_iff (sla : List (List Char)) (a b : Nat) :
    jsSlice sla a b = [] ↔ b - a = 0 ∨ sla.length ≤ a := by
  unfold jsSlice
  rw [← List.length_eq_zero, List.length_take, List.length_drop]
  omega

theorem before_slice_nil_iff (sla : List (List Char)) (c : Nat) :
    jsSlice sla (c - 1) c = [] ↔ c = 0 ∨ sla.length < c := by
  rw [jsSlice_nil_iff]
  omega

theorem after_slice_nil_iff (sla : List (List Char)) (c : Nat) :
    jsSlice sla c (c + 1) = [] ↔ sla.length ≤ c := by
  rw [jsSlice_nil_iff]
  omega

theorem beforeEdge_openRec (sla : List (List Char)) (c : Nat) :
    BeforeEdge sla (openRec sla c) := by
  refine ⟨c, rfl, ?_⟩
  show mkLineInfos _ _ = [] ↔ _
  rw [mkLineInfos_eq_nil_iff]
  exact before_slice_nil_iff sla c

theorem afterEdge_closeRec (sla : List (List Char)) (c : Nat) (cur : MismatchRecord) :
    AfterEdge sla (closeRec sla c cur) := by
  refine ⟨c, rfl, ?_⟩
  show mkLineInfos _ _ = [] ↔ _
  rw [mkLineInfos_eq_nil_iff]
  exact after_slice_nil_iff sla c

theorem closeRec_contextBefore (sla : List (List Char)) (c : Nat)
    (cur : MismatchRecord) : (closeRec sla c cur).contextBefore = cur.contextBefore := rfl

theorem pushLines_context (p : DiffChunk) (c : Nat) (cur : MismatchRecord) :
    (pushLines p c cur).contextBefore = cur.contextBefore ∧
    (pushLines p c cur).contextAfter = cur.contextAfter := by
  unfold pushLines
  by_cases hr : p.kind = ChunkKind.removed <;> simp [hr]

theorem beforeEdge_of_eq {sla : List (List Char)} {r r' : MismatchRecord}
    (h : r'.contextBefore = r.contextBefore) (hb : BeforeEdge sla r) :
    BeforeEdge sla r' := by
  rcases hb with ⟨c, h1, h2⟩
  exact ⟨c, by rw [h]; exact h1, by rw [h]; exact h2⟩

theorem edgeSt_step {sla : List (List Char)} {st : GroupState} (p : DiffChunk)
    (h : EdgeSt sla st) : EdgeSt sla (groupStep sla st p) := by
  obtain ⟨hg, hc⟩ := h
  by_cases hk : p.kind = ChunkKind.unchanged
  · cases hcur : st.current with
    | some cur =>
      rw [groupStep_unchanged_some hk hcur]
      refine ⟨fun r hr => ?_, by simp⟩
      rcases List.mem_append.mp hr with hr | hr
      · exact hg r hr
      · rcases List.mem_singleton.mp hr with rfl
        exact ⟨beforeEdge_of_eq (closeRec_contextBefore sla st.cursor cur)
          (hc cur hcur).1, afterEdge_closeRec sla st.cursor cur⟩
    | none =>
      rw [groupStep_unchanged_none hk hcur]
      exact ⟨hg, hc⟩
  · cases hcur : st.current with
    | some cur =>
      rw [groupStep_changed_some hk hcur]
      refine ⟨hg, fun r hr => ?_⟩
      rcases Option.some.injEq .. ▸ hr with rfl
      refine ⟨beforeEdge_of_eq (pushLines_context p st.cursor cur).1
        (hc cur hcur).1, ?_⟩
      rw [(pushLines_context p st.cursor cur).2]
      exact (hc cur hcur).2
    | none =>
      rw [groupStep_changed_none hk hcur]
      refine ⟨hg, fun r hr => ?_⟩
      rcases Option.some.injEq .. ▸ hr with rfl
      refine ⟨beforeEdge_of_eq (pushLines_context p st.cursor (openRec sla st.cursor)).1
        (beforeEdge_openRec sla st.cursor), ?_⟩
      rw [(pushLines_context p st.cursor (openRec sla st.cursor)).2]
      rfl

theorem runGroup_edge (sla : List (List Char)) (chunks : List DiffChunk) :
    EdgeSt sla (chunks.foldl (groupStep sla) ⟨0, none, []⟩) := by
  apply foldl_inv
  · exact ⟨by simp, by simp⟩
  · intro st a hst _
    exact edgeSt_step a hst

/-! ## Claim C4: context bounds -/

/-- Claim C4, as stated, is false: in cli.ts lines 119 and 140 the
context slices take at most ONE line (`slice(Math.max(0, cursor-1),
cursor)` and `slice(cursor, cursor+1)`), so a mid-document record has a
one-element contextBefore even though two server lines precede its
first changed line (here server line 3, preceded by lines `a`, `b`). -/
theorem c4_context_counterexample :
    ¬ (∀ r ∈ runGroup ["a".data, "b".data, "c".data, "d".data]
          [⟨ChunkKind.unchanged, "a\nb\n".data⟩, ⟨ChunkKind.removed, "c\n".data⟩,
           ⟨ChunkKind.unchanged, "d".data⟩],
        ∀ li, r.serverLines.head? = some li →
          r.contextBefore.length < 2 → li.line - 1 < 2) := by
  decide

/-- Claim C4 amended: the configured context bound in the code is 1,
not 2: every contextBefore and contextAfter array of every produced
record has length at most 1, and an array is empty only at a document
edge — contextBefore is the slice of the server array just before the
record's opening cursor and is empty exactly when no server line
exists there, and contextAfter is the slice at a closing cursor and is
empty exactly when no server line exists there — except that a record
still open at the end of the scan has an empty contextAfter. -/
theorem c4_context_bounds (sla : List (List Char)) (chunks : List DiffChunk) :
    ∀ r ∈ runGroup sla chunks,
      r.contextBefore.length ≤ 1 ∧ r.contextAfter.length ≤ 1 ∧
      BeforeEdge sla r ∧
      (AfterEdge sla r ∨
        ((chunks.foldl (groupStep sla) ⟨0, none, []⟩).current = some r ∧
          r.contextAfter = [])) := by
  intro r hr
  obtain ⟨_, _, _, _, hlb, hla⟩ := runGroup_recShape sla chunks r hr
  have hfin := runGroup_edge sla chunks
  unfold runGroup at hr
  rcases List.mem_append.mp hr with hr | hr
  · rcases hfin.1 r hr with ⟨hb, ha⟩
    exact ⟨hlb, hla, hb, Or.inl ha⟩
  · cases hcur : (chunks.foldl (groupStep sla) ⟨0, none, []⟩).current with
    | none => rw [hcur] at hr; cases hr
    | some cur =>
      rw [hcur] at hr
      rcases List.mem_singleton.mp hr with rfl
      rcases hfin.2 r hcur with ⟨hb, ha⟩
      exact ⟨hlb, hla, hb, Or.inr ⟨rfl, ha⟩⟩

/-- Witness for the amended C4 at a concrete run: the record opens at
cursor 0, so its contextBefore is empty precisely because the document
edge precedes it, and it is still open when the scan ends, so its
contextAfter is empty. -/
theorem c4_context_bounds_witness :
    (MismatchRecord.mk [] [LineInfo.mk 1 "a".data 1] [] []).contextBefore.length ≤ 1 ∧
    (MismatchRecord.mk [] [LineInfo.mk 1 "a".data 1] [] []).contextAfter.length ≤ 1 ∧
    BeforeEdge ["a".data] (MismatchRecord.mk [] [LineInfo.mk 1 "a".data 1] [] []) ∧
    (AfterEdge ["a".data] (MismatchRecord.mk [] [LineInfo.mk 1 "a".data 1] [] []) ∨
      ((([(⟨ChunkKind.removed, "a\n".data⟩ : DiffChunk)].foldl (groupStep ["a".data])
          ⟨0, none, []⟩).current =
        some (MismatchRecord.mk [] [LineInfo.mk 1 "a".data 1] [] [])) ∧
      (MismatchRecord.mk [] [LineInfo.mk 1 "a".data 1] [] []).contextAfter = [])) :=
  c4_context_bounds ["a".data] [⟨ChunkKind.removed, "a\n".data⟩]
    (MismatchRecord.mk [] [LineInfo.mk 1 "a".data 1] [] []) (by decide)

/-! ## Claim C6: record creation and non-emptiness -/

/-- Claim C6, as stated, is false: a changed chunk consisting only of a
blank line (text `\n`, whose `split('\n').filter(Boolean)` is empty)
opens a record to which no line is ever appended, so the grouped output
contains a record whose serverLines and clientLines are both empty. -/
theorem c6_nonempty_counterexample :
    ¬ (∀ r ∈ runGroup [] [⟨ChunkKind.added, "\n".data⟩],
        ¬ (r.serverLines = [] ∧ r.clientLines = [])) := by
  decide

/-- Claim C6 amended: a MismatchRecord is created only when at least one
changed (Removed or Added) chunk exists — an all-Unchanged edit script
produces no records — and provided every changed chunk contains at
least one nonblank line, no produced record has serverLines and
clientLines both empty. -/
theorem c6_record_creation (sla : List (List Char)) (chunks : List DiffChunk) :
    ((∀ c ∈ chunks, c.kind = ChunkKind.unchanged) → runGroup sla chunks = []) ∧
    ((∀ c ∈ chunks, c.kind ≠ ChunkKind.unchanged → chunkLines c ≠ []) →
      ∀ r ∈ runGroup sla chunks, r.serverLines ≠ [] ∨ r.clientLines ≠ []) := by
  constructor
  · exact runGroup_unchanged_nil sla chunks
  · intro hlines r hr
    have key : ∀ (st : GroupState) (a : DiffChunk),
        ((∀ x ∈ st.grouped, x.serverLines ≠ [] ∨ x.clientLines ≠ []) ∧
         (∀ x, st.current = some x → x.serverLines ≠ [] ∨ x.clientLines ≠ [])) →
        a ∈ chunks →
        ((∀ x ∈ (groupStep sla st a).grouped, x.serverLines ≠ [] ∨ x.clientLines ≠ []) ∧
         (∀ x, (groupStep sla st a).current = some x →
            x.serverLines ≠ [] ∨ x.clientLines ≠ [])) := by
      intro st a hst ha
      obtain ⟨hg, hc⟩ := hst
      by_cases hk : a.kind = ChunkKind.unchanged
      · cases hcur : st.current with
        | some cur =>
          rw [groupStep_unchanged_some hk hcur]
          refine ⟨fun x hx => ?_, by simp⟩
          rcases List.mem_append.mp hx with hx | hx
          · exact hg x hx
          · rcases List.mem_singleton.mp hx with rfl
            exact hc cur hcur
        | none =>
          rw [groupStep_unchanged_none hk hcur]
          exact ⟨hg, hc⟩
      · have hinfos : mkLineInfos ((st.cursor : Int) + 1) (chunkLines a) ≠ [] := by
          intro hnil
          apply hlines a ha hk
          have := mkLineInfos_length ((st.cursor : Int) + 1) (chunkLines a)
          rw [hnil] at this
          exact List.length_eq_zero.mp this.symm
        cases hcur : st.current with
        | some cur =>
          rw [groupStep_changed_some hk hcur]
          refine ⟨hg, fun x hx => ?_⟩
          rcases Option.some.injEq .. ▸ hx with rfl
          unfold pushLines
          by_cases hrm : a.kind = ChunkKind.removed <;>
            simp only [hrm, if_true, if_false, reduceIte]
          · rcases hc cur hcur with hne | hne
            · exact Or.inl (fun hh => hne (List.append_eq_nil.mp hh).1)
            · exact Or.inr hne
          · rcases hc cur hcur with hne | hne
            · exact Or.inl hne
            · exact Or.inr (fun hh => hne (List.append_eq_nil.mp hh).1)
        | none =>
          rw [groupStep_changed_none hk hcur]
          refine ⟨hg, fun x hx => ?_⟩
          rcases Option.some.injEq .. ▸ hx with rfl
          unfold pushLines openRec
          by_cases hrm : a.kind = ChunkKind.removed <;>
            simp only [hrm, if_true, if_false, reduceIte]
          · exact Or.inl (by simpa using hinfos)
          · exact Or.inr (by simpa using hinfos)
    have hfin := @foldl_inv DiffChunk GroupState (groupStep sla)
      (fun st => (∀ x ∈ st.grouped, x.serverLines ≠ [] ∨ x.clientLines ≠ []) ∧
        (∀ x, st.current = some x → x.serverLines ≠ [] ∨ x.clientLines ≠ []))
      chunks ⟨0, none, []⟩ ⟨by simp, by simp⟩ key
    unfold runGroup at hr
    rcases List.mem_append.mp hr with hr | hr
    · exact hfin.1 r hr
    · cases hcur : (chunks.foldl (groupStep sla) ⟨0, none, []⟩).current with
      | none => rw [hcur] at hr; cases hr
      | some cur =>
        rw [hcur] at hr
        rcases List.mem_singleton.mp hr with rfl
        exact hfin.2 r hcur

/-- Witness for the amended C6 at concrete runs. -/
theorem c6_record_creation_witness :
    runGroup [] [⟨ChunkKind.unchanged, "a".data⟩] = [] ∧
    (∀ r ∈ runGroup [] [⟨ChunkKind.removed, "x".data⟩],
      r.serverLines ≠ [] ∨ r.clientLines ≠ []) :=
  ⟨(c6_record_creation [] [⟨ChunkKind.unchanged, "a".data⟩]).1 (by decide),
   (c6_record_creation [] [⟨ChunkKind.removed, "x".data⟩]).2 (by decide)⟩

/-! ## Claim C8: truncation invariant -/

/-- Claim C8 confirmed: every LineInfo produced by the grouper records
the true length of some full line; when that length exceeds the display
width 120 the snippet is the 120-character cut plus the ellipsis marker
(so it ends with the marker, is at most 121 characters, and its body is
a prefix of the line), and otherwise the snippet is the full line
itself. -/
theorem c8_truncation (sla : List (List Char)) (chunks : List DiffChunk)
    (r : MismatchRecord) (hr : r ∈ runGroup sla chunks) (li : LineInfo)
    (hli : li ∈ r.contextBefore ++ r.serverLines ++ r.clientLines ++ r.contextAfter) :
    ∃ full : List Char, li.length = full.length ∧
      (li.length > MAXW → li.snippet.getLast? = some '…' ∧
        li.snippet.length ≤ MAXW + 1 ∧ li.snippet.dropLast <+: full) ∧
      (li.length ≤ MAXW → li.snippet = full) := by
  obtain ⟨hcb, hsv, hcl, hca, _, _⟩ := runGroup_recShape sla chunks r hr
  have hok : LiOk li := by
    rcases List.mem_append.mp hli with h | h₄
    · rcases List.mem_append.mp h with h | h₃
      · rcases List.mem_append.mp h with h₁ | h₂
        · exact hcb li h₁
        · exact hsv li h₂
      · exact hcl li h₃
    · exact hca li h₄
  rcases hok with ⟨full, hs, hl⟩
  refine ⟨full, hl, ?_, ?_⟩
  · intro hgt
    rw [hl] at hgt
    rw [hs]
    unfold snip
    rw [if_pos hgt]
    refine ⟨List.getLast?_concat _, ?_, ?_⟩
    · rw [List.length_append, List.length_take]
      simp only [List.length_singleton]
      omega
    · rw [List.dropLast_concat]
      exact List.take_prefix MAXW full
  · intro hle
    rw [hl] at hle
    rw [hs]
    unfold snip
    rw [if_neg (by omega)]

/-- Witness for C8 at a concrete run. -/
theorem c8_truncation_witness :
    ∃ full : List Char, (LineInfo.mk 1 "a".data 1).length = full.length ∧
      ((LineInfo.mk 1 "a".data 1).length > MAXW →
        (LineInfo.mk 1 "a".data 1).snippet.getLast? = some '…' ∧
        (LineInfo.mk 1 "a".data 1).snippet.length ≤ MAXW + 1 ∧
        (LineInfo.mk 1 "a".data 1).snippet.dropLast <+: full) ∧
      ((LineInfo.mk 1 "a".data 1).length ≤ MAXW →
        (LineInfo.mk 1 "a".data 1).snippet = full) :=
  c8_truncation ["a".data] [⟨ChunkKind.removed, "a\n".data⟩]
    (MismatchRecord.mk [] [LineInfo.mk 1 "a".data 1] [] []) (by decide)
    (LineInfo.mk 1 "a".data 1) (by decide)

/-! ## Claim C10: the relevance filter is a subsequence -/

/-- Claim C10 confirmed: the relevance filter returns a subsequence of
its input — every surviving record is one of the input records,
unchanged, and the relative order is preserved (`<+` is the sublist
relation). -/
theorem c10_filter_subsequence (grouped : List MismatchRecord) :
    List.Sublist (relevanceFilter grouped) grouped ∧
    ∀ r ∈ relevanceFilter grouped, r ∈ grouped := by
  constructor
  · exact List.filter_sublist grouped
  · intro r hr
    exact List.mem_of_mem_filter hr

/-- Witness for C10 at a concrete list. -/
theorem c10_filter_subsequence_witness :
    List.Sublist (relevanceFilter [MismatchRecord.mk [] [] [] []])
      [MismatchRecord.mk [] [] [] []] ∧
    ∀ r ∈ relevanceFilter [MismatchRecord.mk [] [] [] []],
      r ∈ [MismatchRecord.mk [] [] [] []] :=
  c10_filter_subsequence [MismatchRecord.mk [] [] [] []]

/-! ## Lemmas on the modelled line differ -/

theorem toTokens_ne_nil (l : List Char) : toTokens l ≠ [] := by
  cases l with
  | nil => simp [toTokens]
  | cons c rest =>
    by_cases h : c = '\n'
    · simp [toTokens, h]
    · simp only [toTokens, if_neg h]
      cases toTokens rest <;> simp

theorem toTokens_flatten (l : List Char) : (toTokens l).flatten = l := by
  induction l with
  | nil => rfl
  | cons c rest ih =>
    by_cases h : c = '\n'
    · subst h
      simp [toTokens, ih]
    · simp only [toTokens, if_neg h]
      cases hsp : toTokens rest with
      | nil => exact absurd hsp (toTokens_ne_nil rest)
      | cons x xs =>
        rw [hsp] at ih
        simp only [List.flatten_cons] at ih ⊢
        simp [ih]

theorem diffOpsF_cons_cons (f : Nat) (a b : List Char) (as bs : List (List Char)) :
    diffOpsF (f + 1) (a :: as) (b :: bs) =
      if a = b then (ChunkKind.unchanged, a) :: diffOpsF f as bs
      else if lcsLen (a :: as) bs ≤ lcsLen as (b :: bs) then
        (ChunkKind.removed, a) :: diffOpsF f as (b :: bs)
      else (ChunkKind.added, b) :: diffOpsF f (a :: as) bs := rfl

theorem filterMap_const_none {α β : Type _} :
    ∀ l : List α, l.filterMap (fun _ => (none : Option β)) = [] := by
  intro l
  induction l with
  | nil => rfl
  | cons a t ih =>
    rw [List.filterMap_cons]
    exact ih

theorem filterMap_const_some {α : Type _} :
    ∀ l : List α, l.filterMap (fun x => some x) = l := by
  intro l
  induction l with
  | nil => rfl
  | cons a t ih =>
    rw [List.filterMap_cons]
    exact congrArg (List.cons a) ih

theorem diffOpsF_server (f : Nat) : ∀ (as bs : List (List Char)),
    as.length + bs.length ≤ f →
    (diffOpsF f as bs).filterMap
      (fun p => if p.1 = ChunkKind.added then none else some p.2) = as := by
  induction f with
  | zero =>
    intro as bs h
    have : as = [] := List.length_eq_zero.mp (by omega)
    subst this
    rfl
  | succ f ih =>
    intro as bs h
    cases as with
    | nil =>
      show ((bs.map fun b => (ChunkKind.added, b)).filterMap _) = []
      rw [List.filterMap_map]
      exact filterMap_const_none bs
    | cons a as =>
      cases bs with
      | nil =>
        simp only [List.length_cons, List.length_nil] at h
        show a :: (diffOpsF f as []).filterMap _ = a :: as
        exact congrArg (List.cons a) (ih as [] (by simp only [List.length_nil]; omega))
      | cons b bs =>
        simp only [List.length_cons] at h
        rw [diffOpsF_cons_cons]
        by_cases hab : a = b
        · rw [if_pos hab]
          show a :: (diffOpsF f as bs).filterMap _ = a :: as
          exact congrArg (List.cons a) (ih as bs (by omega))
        · rw [if_neg hab]
          by_cases hlc : lcsLen (a :: as) bs ≤ lcsLen as (b :: bs)
          · rw [if_pos hlc]
            show a :: (diffOpsF f as (b :: bs)).filterMap _ = a :: as
            exact congrArg (List.cons a)
              (ih as (b :: bs) (by simp only [List.length_cons]; omega))
          · rw [if_neg hlc]
            show (diffOpsF f (a :: as) bs).filterMap _ = a :: as
            exact ih (a :: as) bs (by simp only [List.length_cons]; omega)

theorem diffOpsF_client (f : Nat) : ∀ (as bs : List (List Char)),
    as.length + bs.length ≤ f →
    (diffOpsF f as bs).filterMap
      (fun p => if p.1 = ChunkKind.removed then none else some p.2) = bs := by
  induction f with
  | zero =>
    intro as bs h
    have : bs = [] := List.length_eq_zero.mp (by omega)
    subst this
    cases as <;> rfl
  | succ f ih =>
    intro as bs h
    cases as with
    | nil =>
      show ((bs.map fun b => (ChunkKind.added, b)).filterMap _) = bs
      rw [List.filterMap_map]
      exact filterMap_const_some bs
    | cons a as =>
      cases bs with
      | nil =>
        simp only [List.length_cons, List.length_nil] at h
        show (diffOpsF f as []).filterMap _ = []
        exact ih as [] (by simp only [List.length_nil]; omega)
      | cons b bs =>
        simp only [List.length_cons] at h
        rw [diffOpsF_cons_cons]
        by_cases hab : a = b
        · rw [if_pos hab]
          show a :: (diffOpsF f as bs).filterMap _ = b :: bs
          rw [hab]
          exact congrArg (List.cons b) (ih as bs (by omega))
        · rw [if_neg hab]
          by_cases hlc : lcsLen (a :: as) bs ≤ lcsLen as (b :: bs)
          · rw [if_pos hlc]
            show (diffOpsF f as (b :: bs)).filterMap _ = b :: bs
            exact ih as (b :: bs) (by simp only [List.length_cons]; omega)
          · rw [if_neg hlc]
            show b :: (diffOpsF f (a :: as) bs).filterMap _ = b :: bs
            exact congrArg (List.cons b)
              (ih (a :: as) bs (by simp only [List.length_cons]; omega))

theorem chunkCons_ne_nil (k : ChunkKind) (t : List Char) :
    ∀ x : List DiffChunk, chunkCons k t x ≠ [] := by
  intro x
  cases x with
  | nil => exact List.cons_ne_nil _ _
  | cons c cs =>
    simp only [chunkCons]
    by_cases hk : c.kind = k
    · rw [if_pos hk]; exact List.cons_ne_nil _ _
    · rw [if_neg hk]; exact List.cons_ne_nil _ _

theorem chunkify_eq_nil_iff (ops : List (ChunkKind × List Char)) :
    chunkify ops = [] ↔ ops = [] := by
  cases ops with
  | nil => simp [chunkify]
  | cons p rest =>
    constructor
    · intro h
      rcases p with ⟨k, t⟩
      exact absurd h (chunkCons_ne_nil k t (chunkify rest))
    · intro h; cases h

theorem chunkify_proj (bad : ChunkKind) : ∀ (ops : List (ChunkKind × List Char)),
    (((chunkify ops).filter (fun c => c.kind != bad)).map (fun c => c.text)).flatten =
    (ops.filterMap (fun p => if p.1 = bad then none else some p.2)).flatten := by
  intro ops
  induction ops with
  | nil => rfl
  | cons p rest ih =>
    rcases p with ⟨k, t⟩
    show (((chunkCons k t (chunkify rest)).filter
        (fun c => c.kind != bad)).map (fun c => c.text)).flatten = _
    cases hr : chunkify rest with
    | nil =>
      have hrest : rest = [] := (chunkify_eq_nil_iff rest).mp hr
      subst hrest
      by_cases hk : k = bad
      · subst hk
        simp [chunkCons, List.filterMap_cons]
      · simp [chunkCons, List.filterMap_cons, hk, bne_iff_ne]
    | cons c cs =>
      rw [hr] at ih
      simp only [chunkCons]
      by_cases hck : c.kind = k
      · rw [if_pos hck]
        by_cases hk : k = bad
        · subst hk
          simp only [List.filter_cons, List.filterMap_cons] at ih ⊢
          simp only [hck] at ih
          simp only [bne_self_eq_false, Bool.false_eq_true, if_false] at ih ⊢
          exact ih
        · simp only [List.filter_cons, List.filterMap_cons] at ih ⊢
          simp only [hck] at ih
          have hb : (k != bad) = true := bne_iff_ne.mpr hk
          simp only [hb, if_true, if_neg hk, List.map_cons, List.flatten_cons] at ih ⊢
          rw [List.append_assoc, ih]
      · rw [if_neg hck]
        by_cases hk : k = bad
        · subst hk
          simp only [List.filter_cons, List.filterMap_cons] at ih ⊢
          simp only [bne_self_eq_false, Bool.false_eq_true, if_false, if_pos rfl] at ih ⊢
          exact ih
        · simp only [List.filter_cons, List.filterMap_cons] at ih ⊢
          have hb : (k != bad) = true := bne_iff_ne.mpr hk
          simp only [hb, if_true, if_neg hk, List.map_cons, List.flatten_cons] at ih ⊢
          rw [ih]

/-! ## Claim C7: reconstruction invariant of the line differ -/

/-- Claim C7 confirmed (spec-modelled differ): for every pair of inputs,
concatenating the text of the Unchanged and Removed chunks of
`diffLines before after`, in order, reproduces `before` exactly, and
concatenating the Unchanged and Added text reproduces `after`. -/
theorem c7_reconstruction (before after : List Char) :
    serverText (diffLines before after) = before ∧
    clientText (diffLines before after) = after := by
  constructor
  · unfold serverText diffLines
    rw [chunkify_proj ChunkKind.added]
    unfold diffOps
    rw [diffOpsF_server _ _ _ (Nat.le_refl _)]
    exact toTokens_flatten before
  · unfold clientText diffLines
    rw [chunkify_proj ChunkKind.removed]
    unfold diffOps
    rw [diffOpsF_client _ _ _ (Nat.le_refl _)]
    exact toTokens_flatten after

/-! ## Claim C2: no diff implies an empty report -/

theorem diffOpsF_self (f : Nat) : ∀ (as : List (List Char)), as.length + as.length ≤ f →
    diffOpsF f as as = as.map (fun a => (ChunkKind.unchanged, a)) := by
  induction f with
  | zero =>
    intro as h
    have : as = [] := List.length_eq_zero.mp (by omega)
    subst this
    rfl
  | succ f ih =>
    intro as h
    cases as with
    | nil => rfl
    | cons a as =>
      simp only [List.length_cons] at h
      rw [diffOpsF_cons_cons, if_pos rfl, List.map_cons]
      exact congrArg (List.cons (ChunkKind.unchanged, a)) (ih as (by omega))

theorem mem_chunkCons {c : DiffChunk} {k : ChunkKind} {t : List Char}
    {x : List DiffChunk} (h : c ∈ chunkCons k t x) : c.kind = k ∨ c ∈ x := by
  cases x with
  | nil =>
    rcases List.mem_singleton.mp h with rfl
    exact Or.inl rfl
  | cons c0 cs =>
    simp only [chunkCons] at h
    by_cases hck : c0.kind = k
    · rw [if_pos hck] at h
      rcases List.mem_cons.mp h with rfl | h
      · exact Or.inl rfl
      · exact Or.inr (List.mem_cons_of_mem c0 h)
    · rw [if_neg hck] at h
      rcases List.mem_cons.mp h with rfl | h
      · exact Or.inl rfl
      · exact Or.inr h

theorem chunkify_kinds {k : ChunkKind} : ∀ (ops : List (ChunkKind × List Char)),
    (∀ p ∈ ops, p.1 = k) → ∀ c ∈ chunkify ops, c.kind = k := by
  intro ops
  induction ops with
  | nil => intro _ c hc; cases hc
  | cons p rest ih =>
    intro hall c hc
    rcases p with ⟨k', t⟩
    have hk' : k' = k := hall (k', t) (List.mem_cons_self _ _)
    have ihr := ih (fun q hq => hall q (List.mem_cons_of_mem _ hq))
    rcases mem_chunkCons hc with h | h
    · rw [h]; exact hk'
    · exact ihr c h

theorem diffLines_self_unchanged (x : List Char) :
    ∀ c ∈ diffLines x x, c.kind = ChunkKind.unchanged := by
  unfold diffLines diffOps
  rw [diffOpsF_self _ _ (Nat.le_refl _)]
  apply chunkify_kinds
  intro p hp
  rcases List.mem_map.mp hp with ⟨a, _, rfl⟩
  rfl

/-- Claim C2 confirmed (spec-modelled differ): if the normalized server
and client documents are equal, the grouped and relevance-filtered
mismatch list is empty and the process exit code is 0 in both JSON and
text format. -/
theorem c2_no_diff_empty (serverHtml clientHtml : List Char)
    (h : normalize serverHtml = normalize clientHtml) :
    runFiltered serverHtml clientHtml = [] ∧
    (render OutputFormat.json (runFiltered serverHtml clientHtml)).exit = 0 ∧
    (render OutputFormat.text (runFiltered serverHtml clientHtml)).exit = 0 := by
  have hempty : runFiltered serverHtml clientHtml = [] := by
    unfold runFiltered
    rw [h]
    rw [runGroup_unchanged_nil _ _ (diffLines_self_unchanged (normalize clientHtml))]
    rfl
  refine ⟨hempty, ?_, ?_⟩ <;> rw [hempty] <;> rfl

/-- Witness for C2 at a concrete pair of equal documents. -/
theorem c2_no_diff_empty_witness :
    runFiltered "<h1>x</h1>".data "<h1>x</h1>".data = [] ∧
    (render OutputFormat.json (runFiltered "<h1>x</h1>".data "<h1>x</h1>".data)).exit = 0 ∧
    (render OutputFormat.text (runFiltered "<h1>x</h1>".data "<h1>x</h1>".data)).exit = 0 :=
  c2_no_diff_empty "<h1>x</h1>".data "<h1>x</h1>".data rfl

/-! ## Claim C9: the reporter -/

theorem renderTextF_eq (f : List MismatchRecord) : ∀ i : Nat,
    renderTextF i f =
      (((List.range f.length).zip f).map (fun p => recordBlock (p.1 + i) p.2)).flatten := by
  induction f with
  | nil => intro i; rfl
  | cons g rest ih =>
    intro i
    show recordBlock i g ++ renderTextF (i + 1) rest = _
    rw [ih (i + 1)]
    rw [List.length_cons, List.range_succ_eq_map, List.zip_cons_cons, List.map_cons,
      List.flatten_cons, List.zip_map_left, List.map_map]
    have hfun : ((fun p : Nat × MismatchRecord => recordBlock (p.1 + i) p.2) ∘
        Prod.map Nat.succ id) =
        fun p : Nat × MismatchRecord => recordBlock (p.1 + (i + 1)) p.2 := by
      funext p
      have harith : p.1.succ + i = p.1 + (i + 1) := by omega
      simp [Function.comp, Prod.map, harith]
    rw [hfun]
    simp

/-- Claim C9 confirmed: in JSON mode the reporter emits the
`{ mismatches: [...] }` document built from the section-3 field names
and exits 0 exactly when the mismatch list is empty (1 otherwise); in
text mode an empty list yields the success line and exit 0, and a
nonempty list emits, per record in order under 1-based numbering, a
header then contextBefore, serverLines as removed, clientLines as
added, then contextAfter, and exits 1. -/
theorem c9_reporter (filtered : List MismatchRecord) :
    ((render OutputFormat.json filtered).jsonDoc =
        some (Json.obj [("mismatches".data, Json.arr (filtered.map recordJson))]) ∧
      ((render OutputFormat.json filtered).exit = 0 ↔ filtered = [])) ∧
    (filtered = [] →
      (render OutputFormat.text filtered).outLines = [successLine] ∧
      (render OutputFormat.text filtered).exit = 0) ∧
    (filtered ≠ [] →
      (render OutputFormat.text filtered).outLines = textReportSpec filtered ∧
      (render OutputFormat.text filtered).exit = 1) := by
  refine ⟨⟨rfl, ?_⟩, ?_, ?_⟩
  · show (if filtered.length ≠ 0 then 1 else 0) = 0 ↔ filtered = []
    cases filtered <;> simp
  · intro h
    subst h
    exact ⟨rfl, rfl⟩
  · intro h
    have hlen : ¬ filtered.length = 0 := by
      intro hc
      exact h (List.length_eq_zero.mp hc)
    constructor
    · show (render OutputFormat.text filtered).outLines = _
      unfold render
      rw [if_neg hlen]
      show renderTextF 0 filtered = textReportSpec filtered
      rw [renderTextF_eq filtered 0]
      unfold textReportSpec
      simp
    · show (render OutputFormat.text filtered).exit = 1
      unfold render
      rw [if_neg hlen]

/-! ## Claim C5: what the doctype-stripping step actually matches -/

theorem seekHtml_sound : ∀ {s r : List Char}, seekHtml s = some r →
    ∃ mid, s = mid ++ htmlLit ++ r ∧ ∀ c ∈ mid, isLineTerm c = false := by
  intro s
  induction s with
  | nil => intro r h; cases h
  | cons c rest ih =>
    intro r h
    simp only [seekHtml] at h
    by_cases hp : htmlLit.isPrefixOf (c :: rest)
    · rw [if_pos hp] at h
      rcases Option.some.injEq .. ▸ h with rfl
      have hpre : htmlLit <+: c :: rest := by
        rw [← List.isPrefixOf_iff_prefix]
        exact hp
      rcases hpre with ⟨u, hu⟩
      refine ⟨[], ?_, by intro x hx; cases hx⟩
      rw [List.nil_append, ← hu, List.drop_left' (by decide)]
    · rw [if_neg hp] at h
      by_cases hn : isLineTerm c = true
      · rw [if_pos hn] at h; cases h
      · rw [if_neg hn] at h
        rw [Bool.not_eq_true] at hn
        rcases ih h with ⟨mid, hm, hmid⟩
        refine ⟨c :: mid, ?_, ?_⟩
        · rw [List.cons_append, List.cons_append, ← hm]
        · intro x hx
          rcases List.mem_cons.mp hx with rfl | hx
          · exact hn
          · exact hmid x hx

theorem seekHtml_cons (c : Char) (rest : List Char) :
    seekHtml (c :: rest) =
      if htmlLit.isPrefixOf (c :: rest) then some ((c :: rest).drop 5)
      else if isLineTerm c then none else seekHtml rest := rfl

theorem seekHtml_complete : ∀ (mid : List Char), (∀ c ∈ mid, isLineTerm c = false) →
    ∀ r : List Char, ∃ r', seekHtml (mid ++ htmlLit ++ r) = some r' := by
  intro mid
  induction mid with
  | nil =>
    intro _ r
    rw [List.nil_append]
    show ∃ r', seekHtml ('<' :: (['h', 't', 'm', 'l'] ++ r)) = some r'
    have hpre : htmlLit.isPrefixOf ('<' :: (['h', 't', 'm', 'l'] ++ r)) = true :=
      List.isPrefixOf_iff_prefix.mpr ⟨r, rfl⟩
    rw [seekHtml_cons, if_pos hpre]
    exact ⟨_, rfl⟩
  | cons m mid' ih =>
    intro hmid r
    have hm : isLineTerm m = false := hmid m (List.mem_cons_self m mid')
    have ihr := ih (fun c hc => hmid c (List.mem_cons_of_mem m hc)) r
    have hshape : (m :: mid') ++ htmlLit ++ r = m :: (mid' ++ htmlLit ++ r) := by
      rw [List.cons_append, List.cons_append]
    rw [hshape, seekHtml_cons]
    by_cases hp : htmlLit.isPrefixOf (m :: (mid' ++ htmlLit ++ r))
    · rw [if_pos hp]
      exact ⟨_, rfl⟩
    · rw [if_neg hp, if_neg (by simp [hm])]
      exact ihr

/-- Claim C5, as stated, is false: the doctype regex in cli.ts line 96
is case-sensitive and `.` crosses no line terminator (LF, CR, U+2028,
U+2029), so a lowercase doctype is NOT stripped (the input passes
through unchanged and still carries its doctype, contrary to collapsing
to the bare root tag); the no-match pass-through is also not the bare
trimmed input, since the meta-charset rewrite still applies. -/
theorem c5_strip_counterexample :
    normalize "<!doctype html><html>x</html>".data = "<!doctype html><html>x</html>".data ∧
    normalize "<!doctype html><html>x</html>".data ≠ "<html>x</html>".data := by
  exact ⟨by decide, by decide⟩

/-- Claim C5 amended: normalize strips a leading doctype only when the
input begins with the exact text `<!DOCTYPE html>` (exact casing and
spacing) and `<html` occurs later with no line terminator (LF, CR,
U+2028, U+2029) in between — any casing difference, or a comment or
whitespace containing a line terminator before the root element,
defeats the strip — collapsing everything before `<html` to the bare
root start tag; when that pattern is absent the stripping step is the
identity and normalize still applies the meta-charset rewrite and the
trim; it always returns a string (it is total). -/
theorem c5_normalize_strip (l : List Char) :
    ((∃ mid r, l = doctypeLit ++ mid ++ htmlLit ++ r ∧
        ∀ c ∈ mid, isLineTerm c = false) →
      ∃ r', stripDoctype l = htmlLit ++ r' ∧
        normalize l = jsTrim (metaNorm (htmlLit ++ r'))) ∧
    ((¬ ∃ mid r, l = doctypeLit ++ mid ++ htmlLit ++ r ∧
        ∀ c ∈ mid, isLineTerm c = false) →
      stripDoctype l = l ∧ normalize l = jsTrim (metaNorm l)) := by
  constructor
  · rintro ⟨mid, r, hl, hmid⟩
    have hl' : l = doctypeLit ++ (mid ++ htmlLit ++ r) := by
      rw [hl]
      simp [List.append_assoc]
    have hpre : doctypeLit.isPrefixOf l := by
      rw [List.isPrefixOf_iff_prefix, hl']
      exact List.prefix_append doctypeLit _
    have hdrop : l.drop 15 = mid ++ htmlLit ++ r := by
      rw [hl', List.drop_left' (by decide)]
    rcases seekHtml_complete mid hmid r with ⟨r', hr'⟩
    refine ⟨r', ?_, ?_⟩
    · unfold stripDoctype
      rw [if_pos hpre, hdrop, hr']
    · unfold normalize
      unfold stripDoctype
      rw [if_pos hpre, hdrop, hr']
  · intro hno
    have hstrip : stripDoctype l = l := by
      unfold stripDoctype
      by_cases hpre : doctypeLit.isPrefixOf l
      · rw [if_pos hpre]
        cases hsh : seekHtml (l.drop 15) with
        | none => rfl
        | some r =>
          exfalso
          apply hno
          rcases seekHtml_sound hsh with ⟨mid, hm, hmid⟩
          have hpre' : doctypeLit <+: l := by
            rw [← List.isPrefixOf_iff_prefix]
            exact hpre
          rcases hpre' with ⟨u, hu⟩
          refine ⟨mid, r, ?_, hmid⟩
          have hu15 : u = l.drop 15 := by
            rw [← hu, List.drop_left' (by decide)]
          rw [← hu, hu15, hm]
          simp [List.append_assoc]
      · rw [if_neg hpre]
    exact ⟨hstrip, by rw [normalize, hstrip]⟩

/-- Witness for the amended C5 at a concrete matching input. -/
theorem c5_normalize_strip_witness :
    ∃ r', stripDoctype "<!DOCTYPE html><html>x".data = htmlLit ++ r' ∧
      normalize "<!DOCTYPE html><html>x".data = jsTrim (metaNorm (htmlLit ++ r')) :=
  (c5_normalize_strip "<!DOCTYPE html><html>x".data).1
    ⟨[], ">x".data, by decide, by decide⟩

/-! ## Claim C3: idempotence of normalize

The development below establishes the behaviour of the global
meta-charset replace under re-application.  First the fuel of
`metaNormF` is discharged so that `metaNorm` satisfies the two natural
scan equations; then the scan is shown to create no new match sites,
which yields idempotence of `metaNorm`; finally fixed points are shown
to be closed under trimming, which gives the corrected form of C3. -/

theorem seekQuote_length : ∀ {z t : List Char}, seekQuote z = some t →
    t.length < z.length := by
  intro z
  induction z with
  | nil => intro t h; cases h
  | cons c rest ih =>
    intro t h
    simp only [seekQuote] at h
    by_cases hc : c = '"'
    · rw [if_pos hc] at h
      obtain rfl := Option.some.inj h
      simp
    · rw [if_neg hc] at h
      have := ih h
      simp only [List.length_cons]
      omega

theorem gwTail_length {t r : List Char} (h : gwTail t = some r) : r.length < t.length := by
  have hd : (t.dropWhile isJsSpace).length ≤ t.length :=
    (List.dropWhile_sublist isJsSpace).length_le
  unfold gwTail at h
  split at h
  · rename_i r0 heq
    obtain rfl := Option.some.inj h
    rw [heq] at hd
    simp only [List.length_cons] at hd
    omega
  · rename_i r0 heq
    obtain rfl := Option.some.inj h
    rw [heq] at hd
    simp only [List.length_cons] at hd
    omega
  · cases h

theorem tryMeta_length {l q r : List Char} (h : tryMeta l = some (q, r)) :
    r.length < l.length := by
  unfold tryMeta at h
  by_cases hpre : metaPat.isPrefixOf l
  · rw [if_pos hpre] at h
    unfold afterPat at h
    cases hz : l.drop 15 with
    | nil => rw [hz] at h; cases h
    | cons a z' =>
      rw [hz] at h
      by_cases ha : a = '"'
      · simp only [if_pos ha] at h
        cases h
      · simp only [if_neg ha] at h
        cases hsq : seekQuote (a :: z') with
        | none => rw [hsq] at h; cases h
        | some t =>
          rw [hsq] at h
          simp only [Option.some_bind] at h
          cases hgw : gwTail t with
          | none => rw [hgw] at h; cases h
          | some r0 =>
            rw [hgw] at h
            simp only [Option.map_some'] at h
            have hrr : r0 = r := congrArg Prod.snd (Option.some.inj h)
            subst hrr
            have h1 := gwTail_length hgw
            have h2 := seekQuote_length hsq
            have h3 : (l.drop 15).length ≤ l.length :=
              (List.drop_sublist 15 l).length_le
            rw [hz] at h3
            simp only [List.length_cons] at h2 h3 ⊢
            omega
  · rw [if_neg hpre] at h
    cases h

theorem metaNormF_irrel : ∀ (f : Nat), ∀ (g : Nat) (l : List Char),
    l.length ≤ f → l.length ≤ g → metaNormF f l = metaNormF g l := by
  intro f
  induction f with
  | zero =>
    intro g l hf _
    have hl : l = [] := List.length_eq_zero.mp (by omega)
    subst hl
    cases g <;> rfl
  | succ f ih =>
    intro g l hf hg
    cases l with
    | nil => cases g <;> rfl
    | cons c cs =>
      cases g with
      | zero => simp at hg
      | succ g =>
        simp only [List.length_cons] at hf hg
        cases ht : tryMeta (c :: cs) with
        | some qr =>
          rcases qr with ⟨q, r⟩
          have hlen := tryMeta_length ht
          simp only [List.length_cons] at hlen
          simp only [metaNormF, ht]
          exact congrArg (replMeta q ++ ·) (ih g r (by omega) (by omega))
        | none =>
          simp only [metaNormF, ht]
          exact congrArg (c :: ·) (ih g cs (by omega) (by omega))

theorem metaNorm_nil : metaNorm [] = [] := rfl

theorem metaNorm_cons_none {c : Char} {cs : List Char}
    (h : tryMeta (c :: cs) = none) : metaNorm (c :: cs) = c :: metaNorm cs := by
  unfold metaNorm
  simp only [List.length_cons, metaNormF, h]

theorem metaNorm_cons_some {c : Char} {cs q r : List Char}
    (h : tryMeta (c :: cs) = some (q, r)) :
    metaNorm (c :: cs) = replMeta q ++ metaNorm r := by
  unfold metaNorm
  have hlen := tryMeta_length h
  simp only [List.length_cons] at hlen
  simp only [List.length_cons, metaNormF, h]
  exact congrArg (replMeta q ++ ·) (metaNormF_irrel cs.length r.length r (by omega) le_rfl)

theorem metaNorm_eq_some {l q r : List Char} (h : tryMeta l = some (q, r)) :
    metaNorm l = replMeta q ++ metaNorm r := by
  cases l with
  | nil =>
    have hn : tryMeta [] = none := rfl
    rw [hn] at h
    cases h
  | cons c cs => exact metaNorm_cons_some h

/-! Structure of `metaPat` and small shape facts. -/

theorem metaPat_eq_cons : metaPat = '<' :: mpTail := by decide

theorem metaPat_eq_core : metaPat = mpCore ++ ['"'] := by decide

theorem replMeta_head (q : List Char) : ∃ rest, replMeta q = '<' :: rest := by
  refine ⟨mpTail ++ q ++ ['"', '>'], ?_⟩
  unfold replMeta
  rw [metaPat_eq_cons]
  simp

theorem tryMeta_not_lt {c : Char} (cs : List Char) (hc : c ≠ '<') :
    tryMeta (c :: cs) = none := by
  unfold tryMeta
  rw [if_neg]
  intro hp
  rw [List.isPrefixOf_iff_prefix, metaPat_eq_cons, List.cons_prefix_cons] at hp
  exact hc hp.1.symm

/-! Computation rules for `seekQuote`, `takeWhile` and `gwTail`. -/

theorem seekQuote_cons_quote (t : List Char) : seekQuote ('"' :: t) = some t := by
  simp [seekQuote]

theorem seekQuote_cons_ne {c : Char} (hc : c ≠ '"') (t : List Char) :
    seekQuote (c :: t) = seekQuote t := by
  simp [seekQuote, hc]

theorem seekQuote_no_quote_append {q : List Char} (hq : ∀ c ∈ q, c ≠ '"') :
    ∀ t : List Char, seekQuote (q ++ '"' :: t) = some t := by
  induction q with
  | nil => intro t; exact seekQuote_cons_quote t
  | cons c q' ih =>
    intro t
    rw [List.cons_append,
      seekQuote_cons_ne (hq c (List.mem_cons_self c q')) (q' ++ '"' :: t)]
    exact ih (fun x hx => hq x (List.mem_cons_of_mem c hx)) t

theorem seekQuote_none_of_no_quote {x : List Char} (hx : ∀ c ∈ x, c ≠ '"') :
    seekQuote x = none := by
  induction x with
  | nil => rfl
  | cons c x' ih =>
    rw [seekQuote_cons_ne (hx c (List.mem_cons_self c x')) x']
    exact ih (fun y hy => hx y (List.mem_cons_of_mem c hy))

theorem seekQuote_some_of_mem : ∀ {x : List Char}, '"' ∈ x →
    ∃ t, seekQuote x = some t := by
  intro x
  induction x with
  | nil => intro h; cases h
  | cons c x' ih =>
    intro h
    by_cases hc : c = '"'
    · subst hc
      exact ⟨x', seekQuote_cons_quote x'⟩
    · rw [seekQuote_cons_ne hc x']
      rcases List.mem_cons.mp h with he | h
      · exact absurd he.symm hc
      · exact ih h

theorem takeWhile_no_quote_append {q : List Char} (hq : ∀ c ∈ q, c ≠ '"') :
    ∀ t : List Char, (q ++ '"' :: t).takeWhile (fun c => c ≠ '"') = q := by
  induction q with
  | nil =>
    intro t
    simp [List.takeWhile_cons]
  | cons c q' ih =>
    intro t
    rw [List.cons_append, List.takeWhile_cons]
    have hc : c ≠ '"' := hq c (List.mem_cons_self c q')
    rw [if_pos (by simp [hc])]
    exact congrArg (List.cons c) (ih (fun x hx => hq x (List.mem_cons_of_mem c hx)) t)

theorem gwTail_nil : gwTail [] = none := rfl

theorem gwTail_ws_cons {c : Char} (h : isJsSpace c = true) (t : List Char) :
    gwTail (c :: t) = gwTail t := by
  unfold gwTail
  rw [List.dropWhile_cons, if_pos h]

theorem gwTail_gt (t : List Char) : gwTail ('>' :: t) = some t := by
  unfold gwTail
  rw [List.dropWhile_cons, if_neg (by decide)]
  rfl

theorem gwTail_quote (t : List Char) : gwTail ('"' :: t) = none := by
  unfold gwTail
  rw [List.dropWhile_cons, if_neg (by decide)]
  rfl

theorem gwTail_slash_nil : gwTail ['/'] = none := by
  unfold gwTail
  rw [List.dropWhile_cons, if_neg (by decide)]
  rfl

theorem gwTail_slash_gt (t : List Char) : gwTail ('/' :: '>' :: t) = some t := by
  unfold gwTail
  rw [List.dropWhile_cons, if_neg (by decide)]
  rfl

theorem gwTail_slash_ne {c : Char} (hc : c ≠ '>') (t : List Char) :
    gwTail ('/' :: c :: t) = none := by
  unfold gwTail
  rw [List.dropWhile_cons, if_neg (by decide)]
  split
  · rename_i r heq
    simp at heq
  · rename_i r heq
    simp at heq
    exact absurd heq.1 hc
  · rfl

theorem gwTail_other {c : Char} (hws : isJsSpace c = false) (hgt : c ≠ '>')
    (hsl : c ≠ '/') (t : List Char) : gwTail (c :: t) = none := by
  unfold gwTail
  rw [List.dropWhile_cons, if_neg (by simp [hws])]
  split
  · rename_i r heq
    simp only [List.cons.injEq] at heq
    exact absurd heq.1 hgt
  · rename_i r heq
    simp only [List.cons.injEq] at heq
    exact absurd heq.1 hsl
  · rfl

/-! Inversion and construction for the meta-charset matcher. -/

theorem afterPat_cons (a : Char) (z' : List Char) :
    afterPat (a :: z') =
      if a = '"' then none
      else (seekQuote (a :: z')).bind
        (fun t => (gwTail t).map
          (fun r => ((a :: z').takeWhile (fun c => c ≠ '"'), r))) := rfl

theorem seekQuote_dropWhile : ∀ {z t : List Char}, seekQuote z = some t →
    z.dropWhile (fun c => c ≠ '"') = '"' :: t := by
  intro z
  induction z with
  | nil => intro t h; cases h
  | cons c rest ih =>
    intro t h
    by_cases hc : c = '"'
    · subst hc
      rw [seekQuote_cons_quote] at h
      obtain rfl := Option.some.inj h
      rw [List.dropWhile_cons, if_neg (by simp)]
    · rw [seekQuote_cons_ne hc rest] at h
      rw [List.dropWhile_cons, if_pos (by simp [hc])]
      exact ih h

theorem seekQuote_decomp {z t : List Char} (h : seekQuote z = some t) :
    z = z.takeWhile (fun c => c ≠ '"') ++ '"' :: t := by
  have hsplit : z.takeWhile (fun c => decide (c ≠ '"')) ++
      z.dropWhile (fun c => decide (c ≠ '"')) = z :=
    List.takeWhile_append_dropWhile _ z
  conv_lhs => rw [← hsplit]
  rw [seekQuote_dropWhile h]

theorem tryMeta_some_decomp {l q r : List Char} (h : tryMeta l = some (q, r)) :
    ∃ t, l = metaPat ++ q ++ '"' :: t ∧ (∀ c ∈ q, c ≠ '"') ∧ q ≠ [] ∧
      gwTail t = some r := by
  unfold tryMeta at h
  by_cases hpre : metaPat.isPrefixOf l
  case neg => rw [if_neg hpre] at h; cases h
  rw [if_pos hpre] at h
  unfold afterPat at h
  cases hz : l.drop 15 with
  | nil => rw [hz] at h; cases h
  | cons a z' =>
    rw [hz] at h
    by_cases ha : a = '"'
    · simp only [if_pos ha] at h
      cases h
    · simp only [if_neg ha] at h
      cases hsq : seekQuote (a :: z') with
      | none => rw [hsq] at h; cases h
      | some u =>
        rw [hsq] at h
        simp only [Option.some_bind] at h
        cases hgw : gwTail u with
        | none => rw [hgw] at h; cases h
        | some r0 =>
          rw [hgw] at h
          simp only [Option.map_some'] at h
          have hqr := Option.some.inj h
          have hq : (a :: z').takeWhile (fun c => c ≠ '"') = q := congrArg Prod.fst hqr
          have hr : r0 = r := congrArg Prod.snd hqr
          subst hr
          have hdz : a :: z' = q ++ '"' :: u := by
            rw [← hq]
            exact seekQuote_decomp hsq
          have hl : l = metaPat ++ (a :: z') := by
            rw [List.isPrefixOf_iff_prefix] at hpre
            rcases hpre with ⟨w, hw⟩
            have hw15 : w = l.drop 15 := by rw [← hw, List.drop_left' (by decide)]
            rw [← hw, hw15, hz]
          refine ⟨u, ?_, ?_, ?_, hgw⟩
          · rw [hl, hdz, ← List.append_assoc]
          · intro c hc
            rw [← hq] at hc
            simpa using List.mem_takeWhile_imp hc
          · intro hqe
            rw [hqe, List.nil_append] at hdz
            injection hdz with h1 h2
            exact ha h1
theorem tryMeta_build (q t : List Char) (hq : q ≠ []) (hqq : ∀ c ∈ q, c ≠ '"') :
    tryMeta (metaPat ++ (q ++ '"' :: t)) = (gwTail t).map (fun r => (q, r)) := by
  unfold tryMeta
  rw [if_pos (List.isPrefixOf_iff_prefix.mpr (List.prefix_append ..)),
    List.drop_left' (by decide)]
  cases q with
  | nil => exact absurd rfl hq
  | cons q0 q' =>
    rw [List.cons_append, afterPat_cons,
      if_neg (hqq q0 (List.mem_cons_self q0 q'))]
    have hsq : seekQuote (q0 :: (q' ++ '"' :: t)) = some t := by
      rw [← List.cons_append]
      exact seekQuote_no_quote_append hqq t
    have htw : (q0 :: (q' ++ '"' :: t)).takeWhile (fun c => c ≠ '"') = q0 :: q' := by
      rw [← List.cons_append]
      exact takeWhile_no_quote_append hqq t
    simp only [hsq, Option.some_bind, htw]

theorem seekQuote_of_decomp {l q t₂ : List Char}
    (hdec : l = metaPat ++ q ++ '"' :: t₂) :
    seekQuote l = some (q ++ '"' :: t₂) := by
  rw [hdec, metaPat_eq_core]
  have hshape : (mpCore ++ ['"']) ++ q ++ '"' :: t₂ =
      mpCore ++ '"' :: (q ++ '"' :: t₂) := by
    simp [List.append_assoc]
  rw [hshape]
  exact seekQuote_no_quote_append (by decide) _

theorem seekQuote_replMeta (q x : List Char) :
    seekQuote (replMeta q ++ x) = some (q ++ '"' :: '>' :: x) := by
  unfold replMeta
  rw [metaPat_eq_core]
  have hshape : ((mpCore ++ ['"']) ++ q ++ ['"', '>']) ++ x =
      mpCore ++ '"' :: (q ++ '"' :: '>' :: x) := by
    simp [List.append_assoc]
  rw [hshape]
  exact seekQuote_no_quote_append (by decide) _

/-! The scan creates no new match sites. -/

theorem metaNorm_head (b : Char) (x : List Char) :
    metaNorm (b :: x) = b :: metaNorm x ∨ ∃ rest, metaNorm (b :: x) = '<' :: rest := by
  cases ht : tryMeta (b :: x) with
  | none => exact Or.inl (metaNorm_cons_none ht)
  | some qr =>
    rcases qr with ⟨q, r⟩
    rcases replMeta_head q with ⟨rest, hrest⟩
    refine Or.inr ⟨rest ++ metaNorm r, ?_⟩
    rw [metaNorm_cons_some ht, hrest, List.cons_append]

theorem gwTail_block : ∀ (C : List Char), (∀ c ∈ C, c ≠ '"') →
    ∀ X Y, (gwTail (C ++ '"' :: X) = none ↔ gwTail (C ++ '"' :: Y) = none) := by
  intro C
  induction C with
  | nil =>
    intro _ X Y
    rw [List.nil_append, List.nil_append, gwTail_quote, gwTail_quote]
  | cons e C' ih =>
    intro hC X Y
    have hC' : ∀ c ∈ C', c ≠ '"' := fun c hc => hC c (List.mem_cons_of_mem e hc)
    rw [List.cons_append, List.cons_append]
    by_cases hw : isJsSpace e
    · rw [gwTail_ws_cons hw, gwTail_ws_cons hw]
      exact ih hC' X Y
    · by_cases hgt : e = '>'
      · subst hgt
        rw [gwTail_gt, gwTail_gt]
        simp
      · by_cases hsl : e = '/'
        · subst hsl
          cases C' with
          | nil =>
            rw [List.nil_append, List.nil_append,
              gwTail_slash_ne (by decide) X, gwTail_slash_ne (by decide) Y]
          | cons f C'' =>
            rw [List.cons_append, List.cons_append]
            by_cases hf : f = '>'
            · subst hf
              rw [gwTail_slash_gt, gwTail_slash_gt]
              simp
            · rw [gwTail_slash_ne hf _, gwTail_slash_ne hf _]
        · have hw' : isJsSpace e = false := by simpa using hw
          rw [gwTail_other hw' hgt hsl _, gwTail_other hw' hgt hsl _]

theorem gwTail_metaNorm_n : ∀ (n : Nat) (t : List Char), t.length ≤ n →
    gwTail t = none → gwTail (metaNorm t) = none := by
  intro n
  induction n with
  | zero =>
    intro t hlen h
    have ht : t = [] := List.length_eq_zero.mp (by omega)
    subst ht
    exact h
  | succ n ih =>
    intro t hlen h
    cases t with
    | nil => exact h
    | cons a t' =>
      simp only [List.length_cons] at hlen
      cases htm : tryMeta (a :: t') with
      | some qr =>
        rcases qr with ⟨q, r⟩
        rw [metaNorm_cons_some htm]
        rcases replMeta_head q with ⟨rest, hrest⟩
        rw [hrest, List.cons_append]
        exact gwTail_other (by decide) (by decide) (by decide) _
      | none =>
        rw [metaNorm_cons_none htm]
        by_cases hw : isJsSpace a
        · rw [gwTail_ws_cons hw] at h ⊢
          exact ih t' (by omega) h
        · by_cases hgt : a = '>'
          · subst hgt
            rw [gwTail_gt] at h
            cases h
          · by_cases hsl : a = '/'
            · subst hsl
              cases t' with
              | nil => exact gwTail_slash_nil
              | cons b t'' =>
                have hb : b ≠ '>' := by
                  intro hbe
                  subst hbe
                  rw [gwTail_slash_gt] at h
                  cases h
                rcases metaNorm_head b t'' with hm | ⟨rest, hm⟩
                · rw [hm]
                  exact gwTail_slash_ne hb _
                · rw [hm]
                  exact gwTail_slash_ne (by decide) _
            · have hw' : isJsSpace a = false := by simpa using hw
              exact gwTail_other hw' hgt hsl _

theorem gwTail_metaNorm {t : List Char} (h : gwTail t = none) :
    gwTail (metaNorm t) = none :=
  gwTail_metaNorm_n t.length t le_rfl h

theorem seekQuote_metaNorm_n : ∀ (n : Nat) (t : List Char), t.length ≤ n →
    seekQuote t = none → seekQuote (metaNorm t) = none := by
  intro n
  induction n with
  | zero =>
    intro t hlen h
    have ht : t = [] := List.length_eq_zero.mp (by omega)
    subst ht
    exact h
  | succ n ih =>
    intro t hlen h
    cases t with
    | nil => exact h
    | cons a t' =>
      simp only [List.length_cons] at hlen
      have ha : a ≠ '"' := by
        intro hae
        subst hae
        rw [seekQuote_cons_quote] at h
        cases h
      have h' : seekQuote t' = none := by
        rw [seekQuote_cons_ne ha] at h
        exact h
      cases htm : tryMeta (a :: t') with
      | some qr =>
        exfalso
        rcases qr with ⟨q, r⟩
        rcases tryMeta_some_decomp htm with ⟨t₂, hdec, _, _, _⟩
        have hmem : '"' ∈ a :: t' := by
          rw [hdec]
          simp
        rcases seekQuote_some_of_mem hmem with ⟨u, hu⟩
        rw [h] at hu
        cases hu
      | none =>
        rw [metaNorm_cons_none htm, seekQuote_cons_ne ha]
        exact ih t' (by omega) h'

theorem seekQuote_metaNorm {t : List Char} (h : seekQuote t = none) :
    seekQuote (metaNorm t) = none :=
  seekQuote_metaNorm_n t.length t le_rfl h

theorem sqgw_metaNorm_n : ∀ (n : Nat) (t : List Char), t.length ≤ n →
    ∀ u, seekQuote t = some u → gwTail u = none →
    ∀ v, seekQuote (metaNorm t) = some v → gwTail v = none := by
  intro n
  induction n with
  | zero =>
    intro t hlen u hsq _ v _
    have ht : t = [] := List.length_eq_zero.mp (by omega)
    subst ht
    cases hsq
  | succ n ih =>
    intro t hlen u hsq hgwu v hv
    cases t with
    | nil => cases hsq
    | cons a t' =>
      simp only [List.length_cons] at hlen
      by_cases ha : a = '"'
      · subst ha
        rw [seekQuote_cons_quote] at hsq
        obtain rfl := Option.some.inj hsq
        rw [metaNorm_cons_none (tryMeta_not_lt t' (by decide)),
          seekQuote_cons_quote] at hv
        obtain rfl := Option.some.inj hv
        exact gwTail_metaNorm hgwu
      · cases htm : tryMeta (a :: t') with
        | some qr =>
          rcases qr with ⟨q, r⟩
          rcases tryMeta_some_decomp htm with ⟨t₂, hdec, hqq, hqne, hgw₂⟩
          have hsq' := seekQuote_of_decomp hdec
          rw [hsq] at hsq'
          obtain rfl := (Option.some.inj hsq').symm
          rw [metaNorm_eq_some htm, seekQuote_replMeta q (metaNorm r)] at hv
          obtain rfl := Option.some.inj hv
          exact (gwTail_block q hqq t₂ ('>' :: metaNorm r)).mp hgwu
        | none =>
          rw [seekQuote_cons_ne ha] at hsq
          rw [metaNorm_cons_none htm, seekQuote_cons_ne ha] at hv
          exact ih t' (by omega) u hsq hgwu v hv

theorem sqgw_metaNorm {t u : List Char} (hsq : seekQuote t = some u)
    (hgwu : gwTail u = none) :
    ∀ v, seekQuote (metaNorm t) = some v → gwTail v = none :=
  sqgw_metaNorm_n t.length t le_rfl u hsq hgwu

theorem afterPat_metaNorm (z : List Char) (h : afterPat z = none) :
    afterPat (metaNorm z) = none := by
  cases z with
  | nil => exact h
  | cons a z₁ =>
    by_cases ha : a = '"'
    · subst ha
      rw [metaNorm_cons_none (tryMeta_not_lt z₁ (by decide)), afterPat_cons,
        if_pos rfl]
    · rw [afterPat_cons, if_neg ha] at h
      cases htm : tryMeta (a :: z₁) with
      | some qr =>
        rcases qr with ⟨q, r⟩
        rcases tryMeta_some_decomp htm with ⟨t₂, hdec, hqq, hqne, hgw₂⟩
        have hsqz := seekQuote_of_decomp hdec
        rw [hsqz] at h
        simp only [Option.some_bind] at h
        have hgwu : gwTail (q ++ '"' :: t₂) = none := by
          cases hg : gwTail (q ++ '"' :: t₂) with
          | none => rfl
          | some w => rw [hg] at h; simp at h
        rw [metaNorm_eq_some htm]
        rcases replMeta_head q with ⟨rest, hrest⟩
        rw [hrest, List.cons_append, afterPat_cons, if_neg (by decide),
          ← List.cons_append, ← hrest, seekQuote_replMeta q (metaNorm r)]
        simp only [Option.some_bind]
        rw [(gwTail_block q hqq t₂ ('>' :: metaNorm r)).mp hgwu]
        rfl
      | none =>
        rw [metaNorm_cons_none htm, afterPat_cons, if_neg ha,
          seekQuote_cons_ne ha]
        rw [seekQuote_cons_ne ha] at h
        cases hsq : seekQuote z₁ with
        | none =>
          rw [seekQuote_metaNorm hsq]
          rfl
        | some u =>
          rw [hsq] at h
          simp only [Option.some_bind] at h
          have hgwu : gwTail u = none := by
            cases hg : gwTail u with
            | none => rfl
            | some w => rw [hg] at h; simp at h
          cases hv : seekQuote (metaNorm z₁) with
          | none => rfl
          | some v =>
            simp only [Option.some_bind]
            rw [sqgw_metaNorm hsq hgwu v hv]
            rfl

theorem litPre : ∀ (Q : List Char), '<' ∉ Q → ∀ t, Q <+: metaNorm t →
    Q <+: t ∧ metaNorm t = Q ++ metaNorm (t.drop Q.length) := by
  intro Q
  induction Q with
  | nil =>
    intro _ t _
    exact ⟨List.nil_prefix, by simp⟩
  | cons q Q' ih =>
    intro hQ t hpre
    cases t with
    | nil =>
      rw [metaNorm_nil, List.prefix_nil] at hpre
      cases hpre
    | cons b t' =>
      cases htm : tryMeta (b :: t') with
      | some qr =>
        rcases qr with ⟨q2, r⟩
        rw [metaNorm_cons_some htm] at hpre
        rcases replMeta_head q2 with ⟨rest, hrest⟩
        rw [hrest, List.cons_append, List.cons_prefix_cons] at hpre
        exact absurd (List.mem_cons.mpr (Or.inl hpre.1.symm)) hQ
      | none =>
        rw [metaNorm_cons_none htm, List.cons_prefix_cons] at hpre
        obtain ⟨rfl, hpre'⟩ := hpre
        have hQ' : '<' ∉ Q' := fun hx => hQ (List.mem_cons_of_mem _ hx)
        rcases ih hQ' t' hpre' with ⟨hp2, heq2⟩
        constructor
        · rw [List.cons_prefix_cons]
          exact ⟨rfl, hp2⟩
        · rw [metaNorm_cons_none htm, heq2]
          simp only [List.length_cons, List.drop_succ_cons, List.cons_append]

theorem metaNorm_idem_n : ∀ (n : Nat) (l : List Char), l.length ≤ n →
    metaNorm (metaNorm l) = metaNorm l := by
  intro n
  induction n with
  | zero =>
    intro l hlen
    have hl : l = [] := List.length_eq_zero.mp (by omega)
    subst hl
    rfl
  | succ n ih =>
    intro l hlen
    cases l with
    | nil => rfl
    | cons a t =>
      simp only [List.length_cons] at hlen
      cases htm : tryMeta (a :: t) with
      | some qr =>
        rcases qr with ⟨q, r⟩
        rcases tryMeta_some_decomp htm with ⟨t₂, hdec, hqq, hqne, hgw₂⟩
        have hlr := tryMeta_length htm
        simp only [List.length_cons] at hlr
        rw [metaNorm_cons_some htm]
        have hb : tryMeta (replMeta q ++ metaNorm r) = some (q, metaNorm r) := by
          have hshape : replMeta q ++ metaNorm r =
              metaPat ++ (q ++ '"' :: ('>' :: metaNorm r)) := by
            unfold replMeta
            simp [List.append_assoc]
          rw [hshape, tryMeta_build q ('>' :: metaNorm r) hqne hqq, gwTail_gt]
          rfl
        rw [metaNorm_eq_some hb]
        exact congrArg _ (ih r (by omega))
      | none =>
        rw [metaNorm_cons_none htm]
        have hnone : tryMeta (a :: metaNorm t) = none := by
          by_cases ha : a = '<'
          case neg => exact tryMeta_not_lt _ ha
          subst ha
          by_cases hpre : metaPat.isPrefixOf ('<' :: metaNorm t)
          case neg =>
            unfold tryMeta
            rw [if_neg hpre]
          rw [List.isPrefixOf_iff_prefix, metaPat_eq_cons,
            List.cons_prefix_cons] at hpre
          have hmp : mpTail <+: metaNorm t := hpre.2
          rcases litPre mpTail (by decide) t hmp with ⟨hpt, heqt⟩
          rcases hpt with ⟨u, hu⟩
          have hu14 : u = t.drop mpTail.length := by
            rw [← hu, List.drop_left]
          have hap : afterPat u = none := by
            have h1 : '<' :: t = metaPat ++ u := by
              rw [metaPat_eq_cons, List.cons_append, hu]
            rw [h1] at htm
            unfold tryMeta at htm
            rw [if_pos (List.isPrefixOf_iff_prefix.mpr (List.prefix_append ..)),
              List.drop_left' (by decide)] at htm
            exact htm
          have h2 : '<' :: metaNorm t = metaPat ++ metaNorm u := by
            rw [heqt, metaPat_eq_cons, List.cons_append, hu14]
          rw [h2]
          unfold tryMeta
          rw [if_pos (List.isPrefixOf_iff_prefix.mpr (List.prefix_append ..)),
            List.drop_left' (by decide)]
          exact afterPat_metaNorm u hap
        rw [metaNorm_cons_none hnone]
        exact congrArg _ (ih t (by omega))

/-- The global meta-charset replace is idempotent. -/
theorem metaNorm_idem (l : List Char) : metaNorm (metaNorm l) = metaNorm l :=
  metaNorm_idem_n l.length l le_rfl

/-! Fixed points of `metaNorm` are closed under trimming.  The key fact
is that appending or prepending pure whitespace commutes with the scan
(whitespace can neither start a match nor complete one). -/

theorem ws_ne_lt {c : Char} (h : isJsSpace c = true) : c ≠ '<' := by
  intro hc
  subst hc
  exact absurd h (by decide)

theorem ws_ne_quote {c : Char} (h : isJsSpace c = true) : c ≠ '"' := by
  intro hc
  subst hc
  exact absurd h (by decide)

theorem ws_ne_gt {c : Char} (h : isJsSpace c = true) : c ≠ '>' := by
  intro hc
  subst hc
  exact absurd h (by decide)

theorem seekQuote_append_some {x t : List Char} (h : seekQuote x = some t) :
    ∀ y, seekQuote (x ++ y) = some (t ++ y) := by
  induction x generalizing t with
  | nil => cases h
  | cons c x' ih =>
    intro y
    by_cases hc : c = '"'
    · subst hc
      rw [seekQuote_cons_quote] at h
      obtain rfl := Option.some.inj h
      rw [List.cons_append, seekQuote_cons_quote]
    · rw [seekQuote_cons_ne hc] at h
      rw [List.cons_append, seekQuote_cons_ne hc]
      exact ih h y

theorem seekQuote_append_none {x : List Char} (h : seekQuote x = none) :
    ∀ y, seekQuote (x ++ y) = seekQuote y := by
  induction x with
  | nil => intro y; rfl
  | cons c x' ih =>
    intro y
    by_cases hc : c = '"'
    · subst hc
      rw [seekQuote_cons_quote] at h
      cases h
    · rw [seekQuote_cons_ne hc] at h
      rw [List.cons_append, seekQuote_cons_ne hc]
      exact ih h y

theorem takeWhileQ_append {x t : List Char} (h : seekQuote x = some t) (y : List Char) :
    (x ++ y).takeWhile (fun c => c ≠ '"') = x.takeWhile (fun c => c ≠ '"') := by
  have hq : ∀ c ∈ x.takeWhile (fun c => c ≠ '"'), c ≠ '"' :=
    fun c hc => by simpa using List.mem_takeWhile_imp hc
  have hdec := seekQuote_decomp h
  calc (x ++ y).takeWhile (fun c => c ≠ '"')
      = ((x.takeWhile (fun c => c ≠ '"') ++ '"' :: t) ++ y).takeWhile
          (fun c => c ≠ '"') := by rw [← hdec]
    _ = (x.takeWhile (fun c => c ≠ '"') ++ '"' :: (t ++ y)).takeWhile
          (fun c => c ≠ '"') := by rw [List.append_assoc, List.cons_append]
    _ = x.takeWhile (fun c => c ≠ '"') := takeWhile_no_quote_append hq (t ++ y)

theorem gwTail_append_ws {W : List Char} (hW : ∀ c ∈ W, isJsSpace c = true) :
    ∀ t, gwTail (t ++ W) = (gwTail t).map (fun r => r ++ W) := by
  intro t
  induction t with
  | nil =>
    rw [List.nil_append, gwTail_nil]
    show gwTail W = none
    unfold gwTail
    rw [List.dropWhile_eq_nil_iff.mpr hW]
  | cons c t' ih =>
    by_cases hw : isJsSpace c
    · rw [List.cons_append, gwTail_ws_cons hw, gwTail_ws_cons hw]
      exact ih
    · by_cases hgt : c = '>'
      · subst hgt
        rw [List.cons_append, gwTail_gt, gwTail_gt]
        rfl
      · by_cases hsl : c = '/'
        · subst hsl
          cases t' with
          | nil =>
            rw [gwTail_slash_nil]
            cases W with
            | nil => rfl
            | cons w W' =>
              have hwne : w ≠ '>' := ws_ne_gt (hW w (List.mem_cons_self w W'))
              show gwTail ('/' :: w :: W') = none
              rw [gwTail_slash_ne hwne]
          | cons b t'' =>
            by_cases hb : b = '>'
            · subst hb
              rw [List.cons_append, List.cons_append, gwTail_slash_gt, gwTail_slash_gt]
              rfl
            · rw [List.cons_append, List.cons_append, gwTail_slash_ne hb,
                gwTail_slash_ne hb]
              rfl
        · have hw' : isJsSpace c = false := by simpa using hw
          rw [List.cons_append, gwTail_other hw' hgt hsl, gwTail_other hw' hgt hsl]
          rfl

theorem metaPat_prefix_append_ws {u W : List Char}
    (hW : ∀ c ∈ W, isJsSpace c = true) (h : metaPat <+: u ++ W) :
    metaPat <+: u := by
  by_cases hlen : metaPat.length ≤ u.length
  · rw [List.prefix_iff_eq_take] at h ⊢
    rw [h, List.take_append_eq_append_take]
    have hz : metaPat.length - u.length = 0 := by omega
    rw [hz]
    simp
  · exfalso
    rw [List.prefix_iff_eq_take, List.take_append_eq_append_take] at h
    have hlq : metaPat.getLast? = some '"' := by decide
    have hTne : W.take (metaPat.length - u.length) ≠ [] := by
      intro hTe
      rw [hTe, List.append_nil] at h
      have hlen2 := congrArg List.length h
      rw [List.length_take] at hlen2
      have : metaPat.length = 15 := by decide
      omega
    rw [h, List.getLast?_append_of_ne_nil _ hTne] at hlq
    have hqm : '"' ∈ W.take (metaPat.length - u.length) :=
      List.mem_of_getLast?_eq_some hlq
    have hws : isJsSpace '"' = true := hW '"' (List.take_subset _ _ hqm)
    exact absurd hws (by decide)

theorem afterPat_append_ws {W : List Char} (hW : ∀ c ∈ W, isJsSpace c = true) :
    ∀ z, afterPat (z ++ W) = (afterPat z).map (fun p => (p.1, p.2 ++ W)) := by
  intro z
  cases z with
  | nil =>
    rw [List.nil_append]
    show afterPat W = none
    cases W with
    | nil => rfl
    | cons w W' =>
      rw [afterPat_cons,
        if_neg (ws_ne_quote (hW w (List.mem_cons_self w W'))),
        seekQuote_none_of_no_quote (fun c hc => ws_ne_quote (hW c hc))]
      rfl
  | cons a z' =>
    rw [List.cons_append, afterPat_cons, afterPat_cons]
    by_cases ha : a = '"'
    · rw [if_pos ha, if_pos ha]
      rfl
    · rw [if_neg ha, if_neg ha]
      cases hsq : seekQuote (a :: z') with
      | none =>
        have h1 : seekQuote (a :: (z' ++ W)) = none := by
          rw [← List.cons_append, seekQuote_append_none hsq]
          exact seekQuote_none_of_no_quote (fun c hc => ws_ne_quote (hW c hc))
        rw [h1]
        rfl
      | some t =>
        have h1 : seekQuote (a :: (z' ++ W)) = some (t ++ W) := by
          rw [← List.cons_append]
          exact seekQuote_append_some hsq W
        rw [h1]
        simp only [Option.some_bind]
        rw [gwTail_append_ws hW t]
        have h2 : (a :: (z' ++ W)).takeWhile (fun c => c ≠ '"') =
            (a :: z').takeWhile (fun c => c ≠ '"') := by
          rw [← List.cons_append]
          exact takeWhileQ_append hsq W
        rw [h2]
        cases gwTail t with
        | none => rfl
        | some r => rfl

theorem tryMeta_append_ws {W : List Char} (hW : ∀ c ∈ W, isJsSpace c = true)
    (u : List Char) :
    tryMeta (u ++ W) = (tryMeta u).map (fun p => (p.1, p.2 ++ W)) := by
  by_cases hp : metaPat <+: u
  · have hp2 : metaPat <+: u ++ W := hp.trans (List.prefix_append u W)
    have hlen : metaPat.length ≤ u.length := hp.length_le
    unfold tryMeta
    rw [if_pos (List.isPrefixOf_iff_prefix.mpr hp2),
      if_pos (List.isPrefixOf_iff_prefix.mpr hp)]
    have hdrop : (u ++ W).drop 15 = u.drop 15 ++ W := by
      rw [List.drop_append_eq_append_drop]
      have hz : 15 - u.length = 0 := by
        have : metaPat.length = 15 := by decide
        omega
      rw [hz, List.drop_zero]
    rw [hdrop]
    exact afterPat_append_ws hW (u.drop 15)
  · have hnp2 : ¬ metaPat.isPrefixOf (u ++ W) := by
      rw [List.isPrefixOf_iff_prefix]
      intro hcontra
      exact hp (metaPat_prefix_append_ws hW hcontra)
    have hnp : ¬ metaPat.isPrefixOf u := by
      rw [List.isPrefixOf_iff_prefix]
      exact hp
    unfold tryMeta
    rw [if_neg hnp2, if_neg hnp]
    rfl

theorem metaNorm_ws_prepend {W : List Char} (hW : ∀ c ∈ W, isJsSpace c = true) :
    ∀ u, metaNorm (W ++ u) = W ++ metaNorm u := by
  induction W with
  | nil => intro u; rw [List.nil_append, List.nil_append]
  | cons w W' ih =>
    intro u
    have hw : isJsSpace w = true := hW w (List.mem_cons_self w W')
    rw [List.cons_append,
      metaNorm_cons_none (tryMeta_not_lt _ (ws_ne_lt hw)),
      ih (fun c hc => hW c (List.mem_cons_of_mem w hc)) u, List.cons_append]

theorem metaNorm_append_ws_n : ∀ (n : Nat) (u W : List Char), u.length ≤ n →
    (∀ c ∈ W, isJsSpace c = true) → metaNorm (u ++ W) = metaNorm u ++ W := by
  intro n
  induction n with
  | zero =>
    intro u W hlen hW
    have hu : u = [] := List.length_eq_zero.mp (by omega)
    subst hu
    rw [List.nil_append, metaNorm_nil, List.nil_append]
    have := metaNorm_ws_prepend hW []
    rw [List.append_nil, metaNorm_nil, List.append_nil] at this
    exact this
  | succ n ih =>
    intro u W hlen hW
    cases u with
    | nil =>
      rw [List.nil_append, metaNorm_nil, List.nil_append]
      have := metaNorm_ws_prepend hW []
      rw [List.append_nil, metaNorm_nil, List.append_nil] at this
      exact this
    | cons a u' =>
      simp only [List.length_cons] at hlen
      have htW := tryMeta_append_ws hW (a :: u')
      cases htm : tryMeta (a :: u') with
      | some qr =>
        rcases qr with ⟨q, r⟩
        rw [htm] at htW
        simp only [Option.map_some'] at htW
        have hlr := tryMeta_length htm
        simp only [List.length_cons] at hlr
        rw [List.cons_append] at htW ⊢
        rw [metaNorm_eq_some htW, metaNorm_cons_some htm,
          ih r W (by omega) hW, List.append_assoc]
      | none =>
        rw [htm] at htW
        simp only [Option.map_none'] at htW
        rw [List.cons_append] at htW ⊢
        rw [metaNorm_cons_none htW, metaNorm_cons_none htm,
          ih u' W (by omega) hW, List.cons_append]

theorem metaNorm_append_ws {u W : List Char} (hW : ∀ c ∈ W, isJsSpace c = true) :
    metaNorm (u ++ W) = metaNorm u ++ W :=
  metaNorm_append_ws_n u.length u W le_rfl hW

theorem metaNorm_fixed_trimStart {z : List Char} (h : metaNorm z = z) :
    metaNorm (trimStart z) = trimStart z := by
  have hsplit : z.takeWhile isJsSpace ++ z.dropWhile isJsSpace = z :=
    List.takeWhile_append_dropWhile _ z
  have hWS : ∀ c ∈ z.takeWhile isJsSpace, isJsSpace c = true :=
    fun c hc => List.mem_takeWhile_imp hc
  have h2 : metaNorm (z.takeWhile isJsSpace ++ z.dropWhile isJsSpace) =
      z.takeWhile isJsSpace ++ metaNorm (z.dropWhile isJsSpace) :=
    metaNorm_ws_prepend hWS _
  rw [hsplit] at h2
  have h3 : z.takeWhile isJsSpace ++ metaNorm (z.dropWhile isJsSpace) =
      z.takeWhile isJsSpace ++ z.dropWhile isJsSpace := by
    rw [← h2, h]
    exact hsplit.symm
  exact List.append_cancel_left h3

theorem metaNorm_fixed_trimEnd {z : List Char} (h : metaNorm z = z) :
    metaNorm (trimEnd z) = trimEnd z := by
  have hz : z = trimEnd z ++ (z.reverse.takeWhile isJsSpace).reverse := by
    unfold trimEnd
    rw [← List.reverse_append, List.takeWhile_append_dropWhile, List.reverse_reverse]
  have hWS : ∀ c ∈ (z.reverse.takeWhile isJsSpace).reverse, isJsSpace c = true :=
    fun c hc => List.mem_takeWhile_imp (List.mem_reverse.mp hc)
  have h2 : metaNorm (trimEnd z ++ (z.reverse.takeWhile isJsSpace).reverse) =
      metaNorm (trimEnd z) ++ (z.reverse.takeWhile isJsSpace).reverse :=
    metaNorm_append_ws hWS
  rw [← hz, h] at h2
  have h3 : metaNorm (trimEnd z) ++ (z.reverse.takeWhile isJsSpace).reverse =
      trimEnd z ++ (z.reverse.takeWhile isJsSpace).reverse := by
    rw [← h2]
    exact hz
  exact List.append_cancel_right h3

theorem dropWhile_cons_head {p : Char → Bool} :
    ∀ {l : List Char} {c : Char} {t : List Char},
      l.dropWhile p = c :: t → p c = false := by
  intro l
  induction l with
  | nil => intro c t h; cases h
  | cons a l' ih =>
    intro c t h
    rw [List.dropWhile_cons] at h
    by_cases hp : p a
    · rw [if_pos hp] at h
      exact ih h
    · rw [if_neg hp] at h
      injection h with h1 h2
      subst h1
      simpa using hp

theorem dropWhile_idem (p : Char → Bool) (l : List Char) :
    (l.dropWhile p).dropWhile p = l.dropWhile p := by
  cases hd : l.dropWhile p with
  | nil => rfl
  | cons c t =>
    have hc : p c = false := dropWhile_cons_head hd
    rw [List.dropWhile_cons, if_neg (by simp [hc])]

theorem trimEnd_prefix (l : List Char) : trimEnd l <+: l := by
  unfold trimEnd
  have hsuf : l.reverse.dropWhile isJsSpace <:+ l.reverse :=
    List.dropWhile_suffix isJsSpace
  have := List.reverse_prefix.mpr hsuf
  rwa [List.reverse_reverse] at this

theorem trimEnd_idem (l : List Char) : trimEnd (trimEnd l) = trimEnd l := by
  unfold trimEnd
  rw [List.reverse_reverse, dropWhile_idem]

theorem jsTrim_idem (l : List Char) : jsTrim (jsTrim l) = jsTrim l := by
  unfold jsTrim
  have hts : trimStart (trimEnd (trimStart l)) = trimEnd (trimStart l) := by
    cases hstart : trimStart l with
    | nil => rfl
    | cons c t =>
      have hstart' : l.dropWhile isJsSpace = c :: t := hstart
      have hc : isJsSpace c = false := dropWhile_cons_head hstart'
      rcases trimEnd_prefix (c :: t) with ⟨w, hw⟩
      cases hend : trimEnd (c :: t) with
      | nil => rfl
      | cons d t' =>
        rw [hend] at hw
        have hd : d = c := by
          rw [List.cons_append] at hw
          injection hw with h1 _
        show (d :: t').dropWhile isJsSpace = d :: t'
        rw [List.dropWhile_cons, if_neg (by simp [hd, hc])]
  rw [hts]
  exact trimEnd_idem (trimStart l)

/-- Claim C3, as stated, is false: trimming happens after the (anchored)
doctype strip, so leading whitespace defeats the strip on the first
application but, having been trimmed away, no longer defeats it on the
second — a second application of normalize strips the doctype that the
first left in place. -/
theorem c3_idempotence_counterexample :
    normalize (normalize " <!DOCTYPE html><html>".data) ≠
      normalize " <!DOCTYPE html><html>".data := by
  decide

/-- Claim C3 amended: normalize is idempotent on every input x on which
the doctype-stripping step is the identity of normalize x; a second
application can differ from the first only by stripping a doctype that
trimming or meta-charset rewriting has newly exposed at the start. -/
theorem c3_idempotence (x : List Char)
    (h : stripDoctype (normalize x) = normalize x) :
    normalize (normalize x) = normalize x := by
  have hfix : metaNorm (metaNorm (stripDoctype x)) = metaNorm (stripDoctype x) :=
    metaNorm_idem _
  have h1 := metaNorm_fixed_trimStart hfix
  have h2 := metaNorm_fixed_trimEnd h1
  show jsTrim (metaNorm (stripDoctype (normalize x))) = normalize x
  rw [h]
  have h2' : metaNorm (normalize x) = normalize x := h2
  rw [h2']
  show jsTrim (jsTrim (metaNorm (stripDoctype x))) = normalize x
  exact jsTrim_idem _

/-- Witness for the amended C3 at a concrete input. -/
theorem c3_idempotence_witness :
    normalize (normalize "<html>x</html>".data) = normalize "<html>x</html>".data :=
  c3_idempotence "<html>x</html>".data (by decide)

/-- Witness for C9 at concrete mismatch lists. -/
theorem c9_reporter_witness :
    ((render OutputFormat.text ([] : List MismatchRecord)).outLines = [successLine] ∧
      (render OutputFormat.text ([] : List MismatchRecord)).exit = 0) ∧
    ((render OutputFormat.text [MismatchRecord.mk [] [] [] []]).outLines =
        textReportSpec [MismatchRecord.mk [] [] [] []] ∧
      (render OutputFormat.text [MismatchRecord.mk [] [] [] []]).exit = 1) :=
  ⟨(c9_reporter []).2.1 rfl,
   (c9_reporter [MismatchRecord.mk [] [] [] []]).2.2 (by simp)⟩

end SsrDiag
